import Mathlib

/-!
Verification of the PubSubX broker (server.py) against its specification.

The development shallowly embeds the server's data structures and operations:

* bytes (`Byte`) are natural numbers below 256 in spirit; byte strings are
  `List Byte`; Python `str` values are represented as `List Char` (`PyStr`),
  matching Python's view of a string as a sequence of code points;
* Python dictionaries are association lists `List (κ × ν)`; Python sets are
  duplicate-free lists;
* the mutable `Client` objects of server.py live in an explicit heap
  (`clients : List (ClientId × Client)`); the dictionaries
  `__connected`, `__connected_names` and `__temp_lost` store `ClientId`
  references into that heap, exactly as the Python dictionaries store
  object references;
* operations that can raise (`dict[k]`, `set.remove`, `epoll.modify`,
  assertions) return `Option`, with `none` standing for the raised
  exception;
* `time.time()` values are rationals, `epoll` registrations are modelled as
  an association list from file descriptor to a Boolean that records
  whether `EPOLLOUT` interest is armed (every registered descriptor always
  has `EPOLLIN` interest in server.py).

Sockets, the actual `send`/`recv` calls and the `select.epoll` kernel
object are outside the embedding; what the server sends is returned as an
explicit byte string, and `__requests` (the per-connection inbound framing
buffer) is modelled by the frame codec section below, which embeds
`Server.__receive_request_chunk` on an explicit buffer.
-/

set_option autoImplicit false

/-- A byte of a Python `bytes` object. -/
abbrev Byte := Nat

/-- A Python `str`, viewed as its sequence of characters. -/
abbrev PyStr := List Char

/-- `Server.EOM = b'\n\nx'`, the end-of-message delimiter (server.py line 153). -/
def EOM : List Byte := [10, 10, 120]

/-- `Server.BUFFER_SIZE = 1024` (server.py line 154). -/
def BUFFER_SIZE : Nat := 1024

/-- `Server.MAX_REQUEST_SIZE = 10 * BUFFER_SIZE` (server.py line 155). -/
def MAX_REQUEST_SIZE : Nat := 10 * BUFFER_SIZE

/-- `Client.MAX_STREAM_SIZE = 10 * 1024` (server.py line 83). -/
def MAX_STREAM_SIZE : Nat := 10 * 1024

/-- `Server.LOST_TIMEOUT = 60` seconds (server.py line 156). -/
def LOST_TIMEOUT : ℚ := 60

/-- Python `bytes.split(b'\n\nx')`: leftmost, non-overlapping split on the
three-byte delimiter.  The guard `a = 10 ∧ b = 10 ∧ c = 120` is exactly
"the list starts with `EOM`". -/
def splitEOM : List Byte → List (List Byte)
  | [] => [[]]
  | [a] => [[a]]
  | [a, b] => [[a, b]]
  | a :: b :: c :: rest =>
    if a = 10 ∧ b = 10 ∧ c = 120 then
      [] :: splitEOM rest
    else
      match splitEOM (b :: c :: rest) with
      | [] => [[a]]
      | p :: ps => (a :: p) :: ps

/-- One invocation of the inbound framer on a connection whose buffered
request is `buffer`, after `recv` returned the nonempty `chunk`: lines
504–529 of `Server.__receive_request_chunk`.  Returns the new buffer
(`self.__requests[fileno]`) and the list of byte strings handed to
`__process_message` in order.  Appends the chunk, dumps the buffer if it
exceeds `MAX_REQUEST_SIZE`, otherwise splits on `EOM`: all parts except
the last are emitted, the last becomes the new buffer (reset to `b''`
when the input ends with `EOM`). -/
def receiveChunk (buffer chunk : List Byte) : List Byte × List (List Byte) :=
  let b := buffer ++ chunk
  if b.length > MAX_REQUEST_SIZE then ([], [])
  else if EOM <:+: b then
    let parts := splitEOM b
    if EOM <:+ b then ([], parts.dropLast)
    else (parts.getLastD [], parts.dropLast)
  else (b, [])

/-- Feeding a sequence of received chunks to the framer in order, starting
from buffer `buffer`; returns the final buffer and all emitted messages. -/
def feedChunks : List Byte → List (List Byte) → List Byte × List (List Byte)
  | buffer, [] => (buffer, [])
  | buffer, c :: cs =>
    let step := receiveChunk buffer c
    let rest := feedChunks step.1 cs
    (rest.1, step.2 ++ rest.2)

/-- `Server.__process_message` drops empty messages (line 536) before
decoding; the framer-level emission of the server is therefore the
extracted fragments with empty ones removed.  (Fragments that fail UTF-8
decoding are additionally dropped downstream, which does not affect the
byte-level emission modelled here.) -/
def dropEmpties (msgs : List (List Byte)) : List (List Byte) :=
  msgs.filter (fun m => decide (m ≠ []))

/-- The frame-encoding of a message: payload followed by `EOM`
(spec §4.1 Frame-out; used for every outbound message in server.py). -/
def frameOut (m : List Byte) : List Byte := m ++ EOM

/-- The frame-encoding of a sequence of messages: each followed by `EOM`. -/
def encodeMsgs : List (List Byte) → List Byte
  | [] => []
  | m :: ms => m ++ (EOM ++ encodeMsgs ms)

/-! ## UTF-8 encoding (Python `str.encode()`) -/

/-- UTF-8 encoding of a single Unicode code point. -/
def utf8Char (n : Nat) : List Byte :=
  if n < 128 then [n]
  else if n < 2048 then [192 + n / 64, 128 + n % 64]
  else if n < 65536 then [224 + n / 4096, 128 + (n / 64) % 64, 128 + n % 64]
  else [240 + n / 262144, 128 + (n / 4096) % 64, 128 + (n / 64) % 64, 128 + n % 64]

/-- Python `str.encode()`: UTF-8 encoding of a string. -/
def strBytes (s : PyStr) : List Byte := (s.map (fun c => utf8Char c.toNat)).flatten

/-! ## Association lists (Python dictionaries)

Python dictionaries are embedded as association lists.  `insertKV` first
removes any existing binding of the key, so that key lists stay
duplicate-free; `eraseKV` models `del d[k]` (callers guard on presence,
since `del` on a missing key raises). -/

/-- Dictionary lookup `d[k]`, as an `Option`. -/
def lookupKV {κ ν : Type} [DecidableEq κ] (k : κ) : List (κ × ν) → Option ν
  | [] => none
  | (k2, v) :: rest => if k2 = k then some v else lookupKV k rest

/-- Dictionary deletion `del d[k]` (no-op when absent; callers guard). -/
def eraseKV {κ ν : Type} [DecidableEq κ] (k : κ) (l : List (κ × ν)) : List (κ × ν) :=
  l.filter (fun p => decide (p.1 ≠ k))

/-- Dictionary assignment `d[k] = v`. -/
def insertKV {κ ν : Type} [DecidableEq κ] (k : κ) (v : ν) (l : List (κ × ν)) :
    List (κ × ν) :=
  (k, v) :: eraseKV k l

/-- The keys of a dictionary. -/
def keysKV {κ ν : Type} (l : List (κ × ν)) : List κ := l.map Prod.fst

/-! ## The `Client` class (server.py lines 80–139) -/

/-- A `Client` object: per-session state (server.py lines 85–92).
`topics` is a Python `set` of strings, embedded as a duplicate-free list;
`lost_time` is a `time.time()` value. -/
structure Client where
  name : PyStr
  fileno : Nat
  connected : Bool
  lost_time : ℚ
  message_stream : List Byte
  topics : List PyStr
deriving DecidableEq

/-- `Client.subscribe` (lines 95–101): add `topic` to the subscription set,
returning the updated client and `True` exactly when it was newly added. -/
def Client.subscribe (c : Client) (topic : PyStr) : Client × Bool :=
  if topic ∈ c.topics then (c, false)
  else ({ c with topics := c.topics ++ [topic] }, true)

/-- `Client.unsubscribe` (lines 104–110): remove `topic` from the
subscription set, returning `True` exactly when it was present. -/
def Client.unsubscribe (c : Client) (topic : PyStr) : Client × Bool :=
  if topic ∈ c.topics then ({ c with topics := c.topics.erase topic }, true)
  else (c, false)

/-- `Client.add_message` (lines 113–119): append `message` to the outbound
stream unless that would make it reach `MAX_STREAM_SIZE`; always return
the (possibly unchanged) stream length after the call. -/
def Client.add_message (c : Client) (message : List Byte) : Client × Nat :=
  if c.message_stream.length + message.length < MAX_STREAM_SIZE then
    ({ c with message_stream := c.message_stream ++ message },
      (c.message_stream ++ message).length)
  else (c, c.message_stream.length)

/-- `Client.get_message_chunk` (lines 122–136): slice up to
`max_chunk_size` bytes off the front of the stream; returns the updated
client, the chunk, and the remaining stream size. -/
def Client.get_message_chunk (c : Client) (max_chunk_size : Nat) :
    Client × List Byte × Nat :=
  let stream_size := c.message_stream.length
  let remove := if stream_size > max_chunk_size then max_chunk_size else stream_size
  ({ c with message_stream := c.message_stream.drop remove },
    c.message_stream.take remove, stream_size - remove)

/-- `Client.message_stream_size` (lines 138–139). -/
def Client.message_stream_size (c : Client) : Nat := c.message_stream.length

/-! ## The `Server` state (server.py lines 162–199)

`ClientId` plays the role of a Python object reference: the dictionaries
`connected`, `connected_names` and `temp_lost` store ids into the
`clients` heap, exactly as the Python dictionaries store references to
the same mutable `Client` objects.  The `__requests` dictionary (inbound
framing buffers) is modelled separately by the frame codec above, and the
`__connections` dictionary of sockets is modelled by its key set.
`epoll` maps each registered descriptor to whether `EPOLLOUT` interest is
armed (registered descriptors always have `EPOLLIN` interest); the
listening socket's registration is outside the model. -/
abbrev ClientId := Nat

structure ServerState where
  pending : List Nat
  connections : List Nat
  connected : List (Nat × ClientId)
  connected_names : List (PyStr × ClientId)
  temp_lost : List (PyStr × ClientId)
  clients : List (ClientId × Client)
  topics : List (PyStr × List ClientId)
  epoll : List (Nat × Bool)
  last_refresh : ℚ
deriving DecidableEq

/-- A fresh heap id for a newly constructed `Client` object. -/
def freshId (s : ServerState) : ClientId :=
  (s.clients.map Prod.fst).foldr max 0 + 1

/-- Python `" ".join(l)`. -/
def joinSpaces : List PyStr → PyStr
  | [] => []
  | [t] => t
  | t :: rest => t ++ (' ' :: joinSpaces rest)

/-! ## Server connection and client lifecycle functions

Operations are written in the `Option` monad; `ensure p` models a Python
operation that raises unless `p` holds (`del` on a present key,
`epoll.unregister`/`modify` on a registered descriptor, `set.remove` on a
member, an `assert`). -/

/-- Models a fallible Python operation: `some ()` when `p` holds, `none`
(an exception) otherwise. -/
def ensure (p : Prop) [Decidable p] : Option Unit := if p then some () else none

/-- `Server.__connection_remove` (lines 227–240): unregister the descriptor
from epoll, shut down and close the socket, and delete the connection
from the dictionaries (from `__pending` only if present). -/
def connectionRemove (s : ServerState) (fn : Nat) : Option ServerState := do
  let _ ← ensure (fn ∈ keysKV s.epoll ∧ fn ∈ s.connections)
  some { s with
    epoll := eraseKV fn s.epoll,
    connections := s.connections.erase fn,
    pending := s.pending.erase fn }

/-- The loop `for topic in client.topics: self.__topics[topic].remove(client); …`
of `Server.__client_remove` (lines 259–264): remove the client from every
topic set it subscribes to, deleting topic entries that become empty.
`none` models the `KeyError` raised on a missing topic or membership. -/
def removeFromTopics (cid : ClientId) : List PyStr → List (PyStr × List ClientId) →
    Option (List (PyStr × List ClientId))
  | [], tps => some tps
  | t :: rest, tps => do
    let set ← lookupKV t tps
    let _ ← ensure (cid ∈ set)
    let set2 := set.erase cid
    removeFromTopics cid rest (if set2 = [] then eraseKV t tps else insertKV t set2 tps)

/-- `Server.__client_remove` (lines 249–271): permanent removal of a
connected or lost client: drop it from the name/fileno dictionaries,
from every topic set, close its connection when connected, and delete
the object. -/
def clientRemove (s : ServerState) (cid : ClientId) : Option ServerState := do
  let c ← lookupKV cid s.clients
  let s1 ←
    if c.connected then do
      let _ ← ensure (c.fileno ∈ keysKV s.connected ∧ c.name ∈ keysKV s.connected_names)
      some { s with connected := eraseKV c.fileno s.connected,
                    connected_names := eraseKV c.name s.connected_names }
    else do
      let _ ← ensure (c.name ∈ keysKV s.temp_lost)
      some { s with temp_lost := eraseKV c.name s.temp_lost }
  let tps ← removeFromTopics cid c.topics s1.topics
  let s2 := { s1 with topics := tps }
  let s3 ← if c.connected then connectionRemove s2 c.fileno else some s2
  some { s3 with clients := eraseKV cid s3.clients }

/-- `Server.__client_restore` (lines 275–302): promote a lost client back
to connected on connection `fn`, reply in one `send` with the two frames
`RESTORED <name>` + EOM and the space-joined retained topics + EOM, and
arm `EPOLLOUT` if the client has queued outbound bytes.  Returns the new
state and the bytes sent. -/
def clientRestore (s : ServerState) (fn : Nat) (client_name : PyStr) :
    Option (ServerState × List Byte) := do
  let cid ← lookupKV client_name s.temp_lost
  let c ← lookupKV cid s.clients
  let msg1 := strBytes ("RESTORED ".data ++ client_name) ++ EOM
  let msg2 := strBytes (joinSpaces c.topics) ++ EOM
  let ret_msg := msg1 ++ msg2
  let _ ← ensure (fn ∈ s.connections ∧ fn ∈ s.pending)
  let c2 := { c with fileno := fn, connected := true }
  let s2 := { s with
    pending := s.pending.erase fn,
    temp_lost := eraseKV client_name s.temp_lost,
    connected := insertKV fn cid s.connected,
    connected_names := insertKV client_name cid s.connected_names,
    clients := insertKV cid c2 s.clients }
  if c2.message_stream_size ≠ 0 then do
    let _ ← ensure (fn ∈ keysKV s2.epoll)
    some ({ s2 with epoll := insertKV fn true s2.epoll }, ret_msg)
  else some (s2, ret_msg)

/-- `Server.__client_add` (lines 306–320): create a fresh `Client` bound to
connection `fn`, reply `OK: Conn accepted` + EOM, and promote the
connection out of pending.  Returns the new state and the bytes sent. -/
def clientAdd (s : ServerState) (fn : Nat) (client_name : PyStr) :
    Option (ServerState × List Byte) := do
  let client : Client :=
    { name := client_name, fileno := fn, connected := true, lost_time := 0,
      message_stream := [], topics := [] }
  let ret_msg := strBytes "OK: Conn accepted".data ++ EOM
  let _ ← ensure (fn ∈ s.connections ∧ fn ∈ s.pending)
  some ({ s with
    connected := insertKV fn (freshId s) s.connected,
    connected_names := insertKV client_name (freshId s) s.connected_names,
    clients := insertKV (freshId s) client s.clients,
    pending := s.pending.erase fn }, ret_msg)

/-- `Server.__client_lost` (lines 324–341): the peer of a bound connection
closed; move the client to the lost table, stamp `lost_time` with the
current time, clear its descriptor, and remove the dead connection. -/
def clientLost (s : ServerState) (fn : Nat) (now : ℚ) : Option ServerState := do
  let cid ← lookupKV fn s.connected
  let c ← lookupKV cid s.clients
  let _ ← ensure (c.name ∈ keysKV s.connected_names)
  let c2 := { c with fileno := 0, connected := false, lost_time := now }
  connectionRemove
    { s with
      connected := eraseKV fn s.connected,
      connected_names := eraseKV c.name s.connected_names,
      temp_lost := insertKV c.name cid s.temp_lost,
      clients := insertKV cid c2 s.clients } fn

/-- The `remove_list` built by `Server.__clients_remove_dead` (lines
348–354): the lost clients whose `now - lost_time` exceeds `LOST_TIMEOUT`. -/
def deadList (s : ServerState) (now : ℚ) : List ClientId :=
  s.temp_lost.filterMap (fun pr =>
    match lookupKV pr.2 s.clients with
    | none => none
    | some c => if now - c.lost_time > LOST_TIMEOUT then some pr.2 else none)

/-- The removal loop of `Server.__clients_remove_dead` (lines 357–358). -/
def removeClients : ServerState → List ClientId → Option ServerState
  | s, [] => some s
  | s, cid :: rest => do
    let s2 ← clientRemove s cid
    removeClients s2 rest

/-- `Server.__clients_remove_dead` (lines 345–358). -/
def clientsRemoveDead (s : ServerState) (now : ℚ) : Option ServerState :=
  removeClients s (deadList s now)

/-! ## Server command processing -/

/-- `Server.__process_connect` (lines 389–405): name taken ⇒ error reply
then connection removal; name lost ⇒ restore; otherwise add a new
client.  The `ensure` models `assert(client_name != "")`. -/
def processConnect (s : ServerState) (fn : Nat) (client_name : PyStr) :
    Option (ServerState × List Byte) := do
  let _ ← ensure (client_name ≠ [])
  if client_name ∈ keysKV s.connected_names then do
    let ret_msg := strBytes "ERROR: Name already taken".data ++ EOM
    let _ ← ensure (fn ∈ s.connections)
    let s2 ← connectionRemove s fn
    some (s2, ret_msg)
  else if client_name ∈ keysKV s.temp_lost then
    clientRestore s fn client_name
  else
    clientAdd s fn client_name

/-- `Server.__process_disconect` (lines 409–414). -/
def processDisconect (s : ServerState) (fn : Nat) : Option ServerState := do
  let cid ← lookupKV fn s.connected
  clientRemove s cid

/-- The body of the fan-out loop of `Server.__process_publish` (lines
431–439) for one subscriber: enqueue the framed message via
`Client.add_message` and, when the returned length equals the message
length and the client's descriptor is a connected key, arm `EPOLLOUT`. -/
def publishOne (message : List Byte) (s : ServerState) (cid : ClientId) :
    Option ServerState := do
  let c ← lookupKV cid s.clients
  let am := c.add_message message
  let s2 := { s with clients := insertKV cid am.1 s.clients }
  if am.2 = message.length then
    if am.1.fileno ∈ keysKV s2.connected then do
      let _ ← ensure (am.1.fileno ∈ keysKV s2.epoll)
      some { s2 with epoll := insertKV am.1.fileno true s2.epoll }
    else some s2
  else some s2

/-- The fan-out loop of `Server.__process_publish` over the subscriber set. -/
def publishFold (message : List Byte) : ServerState → List ClientId → Option ServerState
  | s, [] => some s
  | s, cid :: rest => do
    let s2 ← publishOne message s cid
    publishFold message s2 rest

/-- `Server.__process_publish` (lines 418–439): if anybody subscribes to
`topic`, frame `topic + " " + data` and enqueue it to every subscriber.
The `ensure` models `assert(topic != "")`. -/
def processPublish (s : ServerState) (topic data : PyStr) : Option ServerState := do
  let _ ← ensure (topic ≠ [])
  match lookupKV topic s.topics with
  | none => some s
  | some subs =>
    let message := strBytes (topic ++ (' ' :: data)) ++ EOM
    publishFold message s subs

/-- `Server.__process_subscribe` (lines 443–461). -/
def processSubscribe (s : ServerState) (fn : Nat) (topic : PyStr) : Option ServerState := do
  let _ ← ensure (topic ≠ [])
  let cid ← lookupKV fn s.connected
  let c ← lookupKV cid s.clients
  let sub := c.subscribe topic
  let s2 := { s with clients := insertKV cid sub.1 s.clients }
  if sub.2 then
    match lookupKV topic s2.topics with
    | none => some { s2 with topics := insertKV topic [cid] s2.topics }
    | some set =>
      let set2 := if cid ∈ set then set else set ++ [cid]
      some { s2 with topics := insertKV topic set2 s2.topics }
  else some s2

/-- `Server.__process_unsubscribe` (lines 465–480). -/
def processUnsubscribe (s : ServerState) (fn : Nat) (topic : PyStr) : Option ServerState := do
  let _ ← ensure (topic ≠ [])
  let cid ← lookupKV fn s.connected
  let c ← lookupKV cid s.clients
  let unsub := c.unsubscribe topic
  let s2 := { s with clients := insertKV cid unsub.1 s.clients }
  if unsub.2 then do
    let set ← lookupKV topic s2.topics
    let _ ← ensure (cid ∈ set)
    let set2 := set.erase cid
    if set2 = [] then some { s2 with topics := eraseKV topic s2.topics }
    else some { s2 with topics := insertKV topic set2 s2.topics }
  else some s2

/-- `Server.__process_command` (lines 367–385): commands from pending
connections other than a `CONNECT` with a nonempty name remove the
connection; bound connections dispatch on the command word.  Returns the
new state and the bytes sent on `fn` (empty for the silent paths). -/
def processCommand (s : ServerState) (fn : Nat) (command arg1 data : PyStr) :
    Option (ServerState × List Byte) :=
  if fn ∈ s.pending then
    if command = "CONNECT".data ∧ arg1 ≠ [] then processConnect s fn arg1
    else do
      let s2 ← connectionRemove s fn
      some (s2, [])
  else if command = "DISCONNECT".data then do
    let s2 ← processDisconect s fn
    some (s2, [])
  else if command = "PUBLISH".data ∧ arg1 ≠ [] then do
    let s2 ← processPublish s arg1 data
    some (s2, [])
  else if command = "SUBSCRIBE".data ∧ arg1 ≠ [] then do
    let s2 ← processSubscribe s fn arg1
    some (s2, [])
  else if command = "UNSUBSCRIBE".data ∧ arg1 ≠ [] then do
    let s2 ← processUnsubscribe s fn arg1
    some (s2, [])
  else some (s, [])

/-- Python `str.split(' ')` (splits on every single space, keeping empty
fragments), used by `Server.__process_message` (line 541). -/
def splitOnSpace : PyStr → List PyStr
  | [] => [[]]
  | c :: rest =>
    if c = ' ' then [] :: splitOnSpace rest
    else
      match splitOnSpace rest with
      | [] => [[c]]
      | p :: ps => (c :: p) :: ps

/-- The parsing step of `Server.__process_message` (lines 540–548):
`command = msg_list[0]`, `arg1 = msg_list[1]` (or `''`), and
`data = " ".join(msg_list[2:])`. -/
def parseMessage (msg : PyStr) : PyStr × PyStr × PyStr :=
  let msg_list := splitOnSpace msg
  (msg_list.headD [], msg_list.getD 1 [], joinSpaces (msg_list.drop 2))

/-- `Server.__send_message_chunk` (lines 555–569): pop a chunk of at most
`BUFFER_SIZE` bytes off the bound client's stream, send it, and demote
the descriptor to read-only interest when the stream drained.  Returns
the new state and the chunk sent. -/
def sendMessageChunk (s : ServerState) (fn : Nat) : Option (ServerState × List Byte) := do
  let cid ← lookupKV fn s.connected
  let c ← lookupKV cid s.clients
  let gmc := c.get_message_chunk BUFFER_SIZE
  let _ ← ensure (gmc.2.1.length ≤ BUFFER_SIZE ∧ fn ∈ s.connections)
  let s2 := { s with clients := insertKV cid gmc.1 s.clients }
  if gmc.2.2 = 0 then do
    let _ ← ensure (fn ∈ keysKV s2.epoll)
    some ({ s2 with epoll := insertKV fn false s2.epoll }, gmc.2.1)
  else some (s2, gmc.2.1)

/-- The sweep condition of `Server.server_loop` (line 597):
`if (self.__temp_lost) and (self.__last_refresh - time.time()):`.
Python evaluates the second operand by float truthiness, so the sweep is
gated on `last_refresh - now` being nonzero, not on a second having
elapsed. -/
def sweepGuard (s : ServerState) (now : ℚ) : Bool :=
  decide (s.temp_lost ≠ []) && decide (s.last_refresh - now ≠ 0)

/-! ## The `__main__` block (server.py lines 611–624) -/

/-- Outcome of the `__main__` block: either the server loop is entered on
a port, or the process exits early with the given status code, having
printed a diagnostic when `diagnostic` is true. -/
inductive MainResult
  | startLoop (port : ℤ)
  | earlyExit (code : Nat) (diagnostic : Bool)
deriving DecidableEq

/-- ASCII decimal digit test. -/
def isAsciiDigit (c : Char) : Bool := decide ('0' ≤ c) && decide (c ≤ '9')

/-- Python `int()` whitespace stripping (ASCII whitespace). -/
def isPySpace (c : Char) : Bool :=
  decide (c = ' ') || decide (c = '\t') || decide (c = '\n') ||
  decide (c = '\x0b') || decide (c = '\x0c') || decide (c = '\r')

/-- A digit run as accepted by Python `int()` after the first character:
digits with single underscores strictly between digits. -/
def digitRun : List Char → Bool
  | [] => false
  | [c] => isAsciiDigit c
  | c :: c2 :: rest =>
    if isAsciiDigit c then digitRun (c2 :: rest)
    else if c = '_' then isAsciiDigit c2 && digitRun (c2 :: rest)
    else false

/-- Digit sequences accepted by Python `int()`: nonempty, starting with a
digit, underscores only between digits. -/
def pyDigits (l : List Char) : Bool :=
  match l with
  | [] => false
  | c :: _ => isAsciiDigit c && digitRun l

/-- Numeric value of a digit-and-underscore run. -/
def digitsVal (l : List Char) : Nat :=
  (l.filter isAsciiDigit).foldl (fun acc c => acc * 10 + (c.toNat - 48)) 0

/-- Python `int(s)` for decimal string literals: optional surrounding
whitespace, an optional sign, then digits (underscores allowed between
digits).  `none` models the `ValueError`.  (CPython additionally accepts
non-ASCII unicode digits, which cannot occur in the CLI scenarios the
spec describes.) -/
def pythonInt (s : PyStr) : Option ℤ :=
  let t := (s.dropWhile isPySpace).reverse.dropWhile isPySpace |>.reverse
  match t with
  | '+' :: rest => if pyDigits rest then some (digitsVal rest : ℤ) else none
  | '-' :: rest => if pyDigits rest then some (-(digitsVal rest : ℤ)) else none
  | rest => if pyDigits rest then some (digitsVal rest : ℤ) else none

/-- The `__main__` block (lines 611–624): parse `sys.argv[1]` as an int and
require `1024 < port < 32000`; on any failure print the `WRONG_PORT`
diagnostic and call `exit()` — which exits with status code 0.  Otherwise
construct the server and enter `server_loop`. -/
def serverMain (argv : List PyStr) : MainResult :=
  match argv.get? 1 with
  | none => .earlyExit 0 true
  | some a =>
    match pythonInt a with
    | none => .earlyExit 0 true
    | some p => if 1024 < p ∧ p < 32000 then .startLoop p else .earlyExit 0 true

/-! ## Invariant predicates -/

/-- Name-table invariant (claim C2): the connected-client name keys and the
lost-client name keys are each duplicate-free, and the two sets are
disjoint. -/
def NamesOK (s : ServerState) : Prop :=
  (keysKV s.connected_names).Nodup ∧ (keysKV s.temp_lost).Nodup ∧
  ∀ n ∈ keysKV s.connected_names, n ∉ keysKV s.temp_lost

/-- Topic-index invariant (claim C3) in the structural form used for its
preservation proof: every topic set is nonempty and duplicate-free and
its members are live clients subscribed to the topic; conversely every
live client's subscription set is duplicate-free and indexed.  Key lists
are duplicate-free. -/
def TopicsOK (s : ServerState) : Prop :=
  (keysKV s.clients).Nodup ∧ (keysKV s.topics).Nodup ∧
  (∀ pr ∈ s.topics, pr.2 ≠ [] ∧ pr.2.Nodup ∧
    ∀ cid ∈ pr.2, ∃ c, lookupKV cid s.clients = some c ∧ pr.1 ∈ c.topics) ∧
  (∀ pr ∈ s.clients, pr.2.topics.Nodup ∧
    ∀ t ∈ pr.2.topics, ∃ set, lookupKV t s.topics = some set ∧ pr.1 ∈ set)

/-- Claim C3 as stated: a live client is a member of the topic index entry
for `t` iff `t` is in its subscription set, and no topic key maps to an
empty set. -/
def TopicIndexConsistent (s : ServerState) : Prop :=
  (∀ (t : PyStr) (cid : ClientId) (c : Client), lookupKV cid s.clients = some c →
    ((∃ set, lookupKV t s.topics = some set ∧ cid ∈ set) ↔ t ∈ c.topics)) ∧
  (∀ (t : PyStr) (set : List ClientId), lookupKV t s.topics = some set → set ≠ [])

/-- Client-reference coherence used by claims C7 and C10: the heap has
duplicate-free ids, connected-table entries reference connected clients
bound to that descriptor, lost-table entries reference disconnected
clients with descriptor 0, and descriptor 0 (standard input) is never a
connected key. -/
def WFConn (s : ServerState) : Prop :=
  (keysKV s.clients).Nodup ∧
  (∀ pr ∈ s.connected, ∃ c, lookupKV pr.2 s.clients = some c ∧
    c.connected = true ∧ c.fileno = pr.1) ∧
  (∀ pr ∈ s.temp_lost, ∃ c, lookupKV pr.2 s.clients = some c ∧
    c.connected = false ∧ c.fileno = 0) ∧
  0 ∉ keysKV s.connected

/-- Descriptor injectivity used by claim C4: two heap clients with the same
descriptor are the same client whenever that descriptor is a connected
key. -/
def FilenoInj (s : ServerState) : Prop :=
  ∀ pr1 ∈ s.clients, ∀ pr2 ∈ s.clients,
    pr1.2.fileno = pr2.2.fileno → pr1.2.fileno ∈ keysKV s.connected → pr1.1 = pr2.1

/-- Claim C8's (amended) invariant: every name held by the broker is
nonempty. -/
def NamesNonempty (s : ServerState) : Prop :=
  (∀ n ∈ keysKV s.connected_names, n ≠ []) ∧
  (∀ n ∈ keysKV s.temp_lost, n ≠ []) ∧
  (∀ pr ∈ s.clients, pr.2.name ≠ [])

/-! ## Concrete states and clients used by witnesses and counterexamples -/

/-- Witness for C2 at a concrete reachable-looking state: one connected
client `alice` and one lost client `bob`. -/
def c2state : ServerState :=
  { pending := [], connections := [4],
    connected := [(4, 1)],
    connected_names := [("alice".data, 1)],
    temp_lost := [("bob".data, 2)],
    clients :=
      [(1, { name := "alice".data, fileno := 4, connected := true, lost_time := 0,
             message_stream := [], topics := [] }),
       (2, { name := "bob".data, fileno := 0, connected := false, lost_time := 10,
             message_stream := [], topics := [] })],
    topics := [], epoll := [(4, false)], last_refresh := 0 }

/-- Witness state for C3: `alice` (id 1) connected on descriptor 4 and
subscribed to topic `t`; `bob` (id 2) lost with no subscriptions. -/
def c3state : ServerState :=
  { pending := [], connections := [4],
    connected := [(4, 1)],
    connected_names := [("alice".data, 1)],
    temp_lost := [("bob".data, 2)],
    clients :=
      [(1, { name := "alice".data, fileno := 4, connected := true, lost_time := 0,
             message_stream := [], topics := ["t".data] }),
       (2, { name := "bob".data, fileno := 0, connected := false, lost_time := 10,
             message_stream := [], topics := [] })],
    topics := [("t".data, [1])], epoll := [(4, false)], last_refresh := 0 }

/-- A client whose outbound stream holds 10239 bytes: one byte below
`MAX_STREAM_SIZE`. -/
def c5full : Client :=
  { name := "carl".data, fileno := 5, connected := true, lost_time := 0,
    message_stream := List.replicate 10239 0, topics := [] }

/-- An empty-stream client. -/
def c5empty : Client :=
  { name := "dora".data, fileno := 6, connected := true, lost_time := 0,
    message_stream := [], topics := [] }

/-- A server state with a single pending connection (descriptor 3),
no clients. -/
def c8state : ServerState :=
  { pending := [3], connections := [3], connected := [], connected_names := [],
    temp_lost := [], clients := [], topics := [], epoll := [(3, false)],
    last_refresh := 0 }

/-- The `t`-subscriber of the C4 counterexample: connected on descriptor 7
with a 5120-byte outbound buffer. -/
def c4sub : Client :=
  { name := "sub".data, fileno := 7, connected := true, lost_time := 0,
    message_stream := List.replicate 5120 0, topics := ["t".data] }

/-- A server state with `c4sub` as the sole subscriber of topic `t`. -/
def c4state : ServerState :=
  { pending := [], connections := [7], connected := [(7, 1)],
    connected_names := [("sub".data, 1)], temp_lost := [],
    clients := [(1, c4sub)], topics := [("t".data, [1])],
    epoll := [(7, false)], last_refresh := 0 }

/-- The empty-buffer `t`-subscriber of the C4 witness. -/
def c4wsub : Client :=
  { name := "w".data, fileno := 7, connected := true, lost_time := 0,
    message_stream := [], topics := ["t".data] }

/-- A small server state with `c4wsub` as the sole subscriber of topic `t`. -/
def c4wstate : ServerState :=
  { pending := [], connections := [7], connected := [(7, 1)],
    connected_names := [("w".data, 1)], temp_lost := [],
    clients := [(1, c4wsub)], topics := [("t".data, [1])],
    epoll := [(7, false)], last_refresh := 0 }

/-- The state after `PUBLISH t d` in `c4wstate`. -/
def c4wres : ServerState :=
  { c4wstate with
    clients := [(1, { c4wsub with
      message_stream := strBytes ("t".data ++ ' ' :: "d".data) ++ EOM })],
    epoll := [(7, true)] }

/-- The lost client of the C7 witness: two queued bytes, one retained
subscription. -/
def c7bob : Client :=
  { name := "bob".data, fileno := 0, connected := false, lost_time := 0,
    message_stream := [1, 2], topics := ["t".data] }

/-- A server state with `c7bob` in the lost table and connection 5 pending. -/
def c7state : ServerState :=
  { pending := [5], connections := [5], connected := [], connected_names := [],
    temp_lost := [("bob".data, 2)], clients := [(2, c7bob)],
    topics := [("t".data, [2])], epoll := [(5, false)], last_refresh := 0 }

/-- The state after `CONNECT bob` restores `c7bob` on connection 5. -/
def c7res : ServerState :=
  { pending := [], connections := [5], connected := [(5, 2)],
    connected_names := [("bob".data, 2)], temp_lost := [],
    clients := [(2, { c7bob with fileno := 5, connected := true })],
    topics := [("t".data, [2])], epoll := [(5, true)], last_refresh := 0 }

/-! ## Theorems

The remainder of the file is theorems: first the frame-codec lemmas
leading to claim C1, then the session-layer claims. -/

theorem splitEOM_cons3 (a b c : Byte) (rest : List Byte) :
    splitEOM (a :: b :: c :: rest) =
      if a = 10 ∧ b = 10 ∧ c = 120 then
        [] :: splitEOM rest
      else
        match splitEOM (b :: c :: rest) with
        | [] => [[a]]
        | p :: ps => (a :: p) :: ps := rfl

theorem splitEOM_ne_nil (l : List Byte) : splitEOM l ≠ [] := by
  induction l using splitEOM.induct with
  | case1 => simp [splitEOM]
  | case2 a => simp [splitEOM]
  | case3 a b => simp [splitEOM]
  | case4 a b c rest hg ih => rw [splitEOM_cons3, if_pos hg]; simp
  | case5 a b c rest hg hs ih => exact absurd hs ih
  | case6 a b c rest hg p ps hs ih => rw [splitEOM_cons3, if_neg hg, hs]; simp

theorem splitEOM_eom_cons (rest : List Byte) :
    splitEOM (EOM ++ rest) = [] :: splitEOM rest := by
  show splitEOM (10 :: 10 :: 120 :: rest) = [] :: splitEOM rest
  rw [splitEOM_cons3, if_pos ⟨rfl, rfl, rfl⟩]

theorem splitEOM_no_eom (l : List Byte) (h : ¬ EOM <:+: l) : splitEOM l = [l] := by
  induction l using splitEOM.induct with
  | case1 => rfl
  | case2 a => rfl
  | case3 a b => rfl
  | case4 a b c rest hg ih =>
    exfalso
    obtain ⟨h1, h2, h3⟩ := hg
    subst h1; subst h2; subst h3
    exact h ⟨[], rest, rfl⟩
  | case5 a b c rest hg hs ih =>
    exact absurd hs (splitEOM_ne_nil _)
  | case6 a b c rest hg p ps hs ih =>
    have hsub : ¬ EOM <:+: (b :: c :: rest) := fun hi => h (List.infix_cons hi)
    have h2 := ih hsub
    rw [hs] at h2
    injection h2 with e1 e2
    rw [splitEOM_cons3, if_neg hg, hs, e1, e2]

theorem splitEOM_msg (m rest : List Byte) (h : ¬ EOM <:+: m) :
    splitEOM (m ++ (EOM ++ rest)) = m :: splitEOM rest := by
  induction m with
  | nil => simpa using splitEOM_eom_cons rest
  | cons x m2 ih =>
    have hsub : ¬ EOM <:+: m2 := fun hi => h (List.infix_cons hi)
    have h2 := ih hsub
    match m2 with
    | [] =>
      simp only [List.nil_append] at h2
      show splitEOM (x :: (EOM ++ rest)) = [x] :: splitEOM rest
      show splitEOM (x :: 10 :: 10 :: 120 :: rest) = [x] :: splitEOM rest
      rw [splitEOM_cons3, if_neg (by simp)]
      have h2' : splitEOM (10 :: 10 :: 120 :: rest) = [] :: splitEOM rest := splitEOM_eom_cons rest
      rw [h2']
    | [y] =>
      simp only [List.cons_append, List.nil_append] at h2
      show splitEOM (x :: y :: 10 :: 10 :: 120 :: rest) = [x, y] :: splitEOM rest
      rw [splitEOM_cons3, if_neg (by simp)]
      have h2' : splitEOM (y :: 10 :: 10 :: 120 :: rest) = [y] :: splitEOM rest := h2
      rw [h2']
    | y :: z :: m3 =>
      have hguard : ¬ (x = 10 ∧ y = 10 ∧ z = 120) := by
        rintro ⟨e1, e2, e3⟩
        subst e1; subst e2; subst e3
        exact h ⟨[], m3, rfl⟩
      show splitEOM (x :: y :: z :: (m3 ++ (EOM ++ rest))) =
        (x :: y :: z :: m3) :: splitEOM rest
      rw [splitEOM_cons3, if_neg hguard]
      have h2' : splitEOM (y :: z :: (m3 ++ (EOM ++ rest))) =
          (y :: z :: m3) :: splitEOM rest := h2
      rw [h2']

theorem encodeMsgs_append (A B : List (List Byte)) :
    encodeMsgs (A ++ B) = encodeMsgs A ++ encodeMsgs B := by
  induction A with
  | nil => rfl
  | cons m A ih => simp [encodeMsgs, ih]

theorem eom_suffix_encode (L : List (List Byte)) (h : L ≠ []) :
    EOM <:+ encodeMsgs L := by
  induction L with
  | nil => exact absurd rfl h
  | cons m L ih =>
    match L with
    | [] =>
      show EOM <:+ m ++ (EOM ++ [])
      simp [List.suffix_append]
    | m2 :: L2 =>
      have h2 := ih (by simp)
      calc EOM <:+ encodeMsgs (m2 :: L2) := h2
        _ <:+ m ++ (EOM ++ encodeMsgs (m2 :: L2)) :=
          (List.suffix_append _ _).trans (List.suffix_append _ _)

theorem eom_infix_encode (L : List (List Byte)) (h : L ≠ []) :
    EOM <:+: encodeMsgs L := (eom_suffix_encode L h).isInfix

theorem splitEOM_encode (L : List (List Byte)) (r : List Byte)
    (hL : ∀ m ∈ L, ¬ EOM <:+: m) (hr : ¬ EOM <:+: r) :
    splitEOM (encodeMsgs L ++ r) = L ++ [r] := by
  induction L with
  | nil => simpa using splitEOM_no_eom r hr
  | cons m L ih =>
    have hm : ¬ EOM <:+: m := hL m (by simp)
    have hrest := ih (fun x hx => hL x (by simp [hx]))
    show splitEOM ((m ++ (EOM ++ encodeMsgs L)) ++ r) = (m :: L) ++ [r]
    simp only [List.append_assoc]
    rw [splitEOM_msg m _ hm]
    rw [hrest]
    rfl

theorem tens_no_infix (w mr : List Byte) (hmr : ¬ [120, 10, 10] <:+: mr)
    (hw : ∀ b ∈ w, b = 10) : ¬ [120, 10, 10] <:+: (w ++ mr) := by
  induction w with
  | nil => simpa using hmr
  | cons a w ih =>
    have ha : a = 10 := hw a (by simp)
    subst ha
    intro h
    rw [List.cons_append, List.infix_cons_iff] at h
    rcases h with h | h
    · rw [List.cons_prefix_cons] at h
      simp at h
    · exact ih (fun b hb => hw b (by simp [hb])) h

theorem no_eom_infix_append_tens (m t : List Byte) (hm : ¬ EOM <:+: m)
    (ht : ∀ b ∈ t, b = 10) : ¬ EOM <:+: (m ++ t) := by
  rw [← List.reverse_infix]
  rw [List.reverse_append]
  have : EOM.reverse = [120, 10, 10] := rfl
  rw [this]
  apply tens_no_infix
  · rw [← this, List.reverse_infix]
    exact hm
  · intro b hb
    rw [List.mem_reverse] at hb
    exact ht b hb

theorem moe_prefix_align (rr Xr : List Byte) (h1 : [120, 10, 10] <+: (rr ++ Xr))
    (h2 : [120, 10, 10] <+: Xr) (h3 : ¬ [120, 10, 10] <:+: rr) : rr = [] := by
  obtain ⟨tX, htX⟩ := h2
  match rr with
  | [] => rfl
  | a :: rr2 =>
    rw [List.cons_append, List.cons_prefix_cons] at h1
    obtain ⟨ha, h1⟩ := h1
    subst ha
    match rr2 with
    | [] =>
      simp only [List.nil_append] at h1
      rw [← htX] at h1
      rw [show ([120, 10, 10] : List Byte) ++ tX = 120 :: 10 :: 10 :: tX from rfl] at h1
      rw [List.cons_prefix_cons] at h1
      simp at h1
    | b :: rr3 =>
      rw [List.cons_append, List.cons_prefix_cons] at h1
      obtain ⟨hb, h1⟩ := h1
      subst hb
      match rr3 with
      | [] =>
        simp only [List.nil_append] at h1
        rw [← htX] at h1
        rw [show ([120, 10, 10] : List Byte) ++ tX = 120 :: 10 :: 10 :: tX from rfl] at h1
        rw [List.cons_prefix_cons] at h1
        simp at h1
      | c :: rr4 =>
        rw [List.cons_append, List.cons_prefix_cons] at h1
        obtain ⟨hc, h1⟩ := h1
        subst hc
        exact absurd ⟨[], rr4, rfl⟩ h3

theorem suffix_align (X r : List Byte) (hXr : EOM <:+ (X ++ r)) (hX : EOM <:+ X)
    (hr : ¬ EOM <:+: r) : r = [] := by
  have e : EOM.reverse = [120, 10, 10] := rfl
  have h1 : [120, 10, 10] <+: (r.reverse ++ X.reverse) := by
    rw [← e, ← List.reverse_append, List.reverse_prefix]
    exact hXr
  have h2 : [120, 10, 10] <+: X.reverse := by
    rw [← e, List.reverse_prefix]
    exact hX
  have h3 : ¬ [120, 10, 10] <:+: r.reverse := by
    rw [← e, List.reverse_infix]
    exact hr
  have := moe_prefix_align r.reverse X.reverse h1 h2 h3
  simpa using this

theorem prefix_of_eom (t : List Byte) (h : t <+: EOM) :
    t = [] ∨ t = [10] ∨ t = [10, 10] ∨ t = EOM := by
  match t with
  | [] => exact Or.inl rfl
  | a :: t2 =>
    rw [show EOM = 10 :: 10 :: 120 :: [] from rfl, List.cons_prefix_cons] at h
    obtain ⟨ha, h⟩ := h
    subst ha
    match t2 with
    | [] => exact Or.inr (Or.inl rfl)
    | b :: t3 =>
      rw [List.cons_prefix_cons] at h
      obtain ⟨hb, h⟩ := h
      subst hb
      match t3 with
      | [] => exact Or.inr (Or.inr (Or.inl rfl))
      | c :: t4 =>
        rw [List.cons_prefix_cons] at h
        obtain ⟨hc, h⟩ := h
        subst hc
        rw [List.prefix_nil] at h
        subst h
        exact Or.inr (Or.inr (Or.inr rfl))

theorem encode_take_one (m : List Byte) (L : List (List Byte)) :
    encodeMsgs ((m :: L).take 1) = m ++ EOM := by
  simp [encodeMsgs]

theorem encodePrefixDecomp (L : List (List Byte)) (hL : ∀ m ∈ L, ¬ EOM <:+: m) :
    ∀ p X, p ++ X = encodeMsgs L →
      ∃ k r, k ≤ L.length ∧ p = encodeMsgs (L.take k) ++ r ∧ ¬ EOM <:+: r := by
  induction L with
  | nil =>
    intro p X h
    simp only [encodeMsgs] at h
    rw [List.append_eq_nil] at h
    refine ⟨0, [], by simp, by simp [encodeMsgs, h.1], ?_⟩
    intro hinf
    have := hinf.length_le
    simp [EOM] at this
  | cons m L ih =>
    intro p X h
    have hm : ¬ EOM <:+: m := hL m (by simp)
    have hwhole : p <+: encodeMsgs (m :: L) := ⟨X, h⟩
    have hshape : encodeMsgs (m :: L) = (m ++ EOM) ++ encodeMsgs L := by
      simp [encodeMsgs]
    by_cases hlen : p.length ≤ (m ++ EOM).length
    · have hpfx : p <+: m ++ EOM := by
        apply List.prefix_of_prefix_length_le hwhole _ hlen
        rw [hshape]
        exact List.prefix_append _ _
      by_cases hlen2 : p.length ≤ m.length
      · have hpm : p <+: m := by
          apply List.prefix_of_prefix_length_le hwhole _ hlen2
          rw [hshape, List.append_assoc]
          exact List.prefix_append _ _
        refine ⟨0, p, by simp, by simp [encodeMsgs], ?_⟩
        intro hinf
        exact hm (hinf.trans hpm.isInfix)
      · have hmp : m <+: p := by
          apply List.prefix_of_prefix_length_le _ hwhole (by omega)
          rw [hshape, List.append_assoc]
          exact List.prefix_append _ _
        obtain ⟨t, ht⟩ := hmp
        have htpfx : t <+: EOM := by
          rw [← ht] at hpfx
          exact (List.prefix_append_right_inj m).mp hpfx
        rcases prefix_of_eom t htpfx with h0 | h1 | h2 | h3
        · refine ⟨0, p, by simp, by simp [encodeMsgs], ?_⟩
          subst h0
          rw [List.append_nil] at ht
          subst ht
          exact hm
        · refine ⟨0, p, by simp, by simp [encodeMsgs], ?_⟩
          subst h1
          subst ht
          exact no_eom_infix_append_tens m [10] hm (by simp)
        · refine ⟨0, p, by simp, by simp [encodeMsgs], ?_⟩
          subst h2
          subst ht
          exact no_eom_infix_append_tens m [10, 10] hm (by simp)
        · refine ⟨1, [], by simp, ?_, ?_⟩
          · rw [encode_take_one, List.append_nil, ← ht, h3]
          · intro hinf
            have := hinf.length_le
            simp [EOM] at this
    · have hmep : (m ++ EOM) <+: p := by
        apply List.prefix_of_prefix_length_le _ hwhole (by omega)
        rw [hshape]
        exact List.prefix_append _ _
      obtain ⟨p2, hp2⟩ := hmep
      have hrec : p2 ++ X = encodeMsgs L := by
        have h' : (m ++ EOM) ++ (p2 ++ X) = (m ++ EOM) ++ encodeMsgs L := by
          rw [← List.append_assoc, hp2, h, hshape]
        exact List.append_cancel_left h'
      obtain ⟨k, r, hk, hdecomp, hr⟩ := ih (fun x hx => hL x (by simp [hx])) p2 X hrec
      refine ⟨k + 1, r, by simpa using Nat.succ_le_succ hk, ?_, hr⟩
      rw [← hp2, hdecomp]
      show (m ++ EOM) ++ (encodeMsgs (L.take k) ++ r) =
        encodeMsgs (m :: L.take k) ++ r
      simp [encodeMsgs]

theorem feedChunks_encode (chunks : List (List Byte)) :
    ∀ (r : List Byte) (rest : List (List Byte)),
      (∀ m ∈ rest, ¬ EOM <:+: m) → ¬ EOM <:+: r →
      r ++ chunks.flatten = encodeMsgs rest →
      (encodeMsgs rest).length ≤ MAX_REQUEST_SIZE →
      feedChunks r chunks = ([], rest) := by
  induction chunks with
  | nil =>
    intro r rest h1 h2 h3 h4
    simp only [List.flatten_nil, List.append_nil] at h3
    match rest with
    | [] =>
      have : r = [] := by simpa [encodeMsgs] using h3
      subst this
      rfl
    | m :: rest2 =>
      exfalso
      exact h2 (h3 ▸ eom_infix_encode (m :: rest2) (by simp))
  | cons c cs ih =>
    intro r rest h1 h2 h3 h4
    have hb : (r ++ c) ++ cs.flatten = encodeMsgs rest := by
      simpa [List.append_assoc] using h3
    obtain ⟨k, r2, hk, hdecomp, hr2⟩ :=
      encodePrefixDecomp rest h1 (r ++ c) cs.flatten hb
    have hblen : (r ++ c).length ≤ MAX_REQUEST_SIZE := by
      have : (r ++ c) <+: encodeMsgs rest := ⟨cs.flatten, hb⟩
      exact le_trans this.length_le h4
    have henc : encodeMsgs rest = encodeMsgs (rest.take k) ++ encodeMsgs (rest.drop k) := by
      rw [← encodeMsgs_append, List.take_append_drop]
    have hunfold : feedChunks r (c :: cs) =
        ((feedChunks (receiveChunk r c).1 cs).1,
          (receiveChunk r c).2 ++ (feedChunks (receiveChunk r c).1 cs).2) := rfl
    rw [hunfold]
    match hkcase : k with
    | 0 =>
      have hrc : r ++ c = r2 := by simpa [encodeMsgs] using hdecomp
      have hstep : receiveChunk r c = (r ++ c, []) := by
        unfold receiveChunk
        rw [if_neg (by omega), if_neg (by rw [hrc]; exact hr2)]
      have hih := ih (r ++ c) rest h1 (hrc ▸ hr2) hb h4
      rw [hstep]
      simp [hih]
    | k0 + 1 =>
      have htk : rest.take (k0 + 1) ≠ [] := by
        have : rest ≠ [] := by
          intro hemp
          rw [hemp] at hk
          simp at hk
        match rest, this with
        | m :: rest2, _ => simp
      have hsplit : splitEOM (r ++ c) = rest.take (k0 + 1) ++ [r2] := by
        rw [hdecomp]
        exact splitEOM_encode _ r2 (fun x hx => h1 x (List.mem_of_mem_take hx)) hr2
      have hinf : EOM <:+: (r ++ c) := by
        rw [hdecomp]
        exact (eom_infix_encode _ htk).trans (List.prefix_append _ _).isInfix
      have hcancel : r2 ++ cs.flatten = encodeMsgs (rest.drop (k0 + 1)) := by
        have h' : encodeMsgs (rest.take (k0 + 1)) ++ (r2 ++ cs.flatten) =
            encodeMsgs (rest.take (k0 + 1)) ++ encodeMsgs (rest.drop (k0 + 1)) := by
          rw [← List.append_assoc, ← hdecomp, hb, henc]
        exact List.append_cancel_left h' 
      have hlendrop : (encodeMsgs (rest.drop (k0 + 1))).length ≤ MAX_REQUEST_SIZE := by
        have : (encodeMsgs rest).length =
            (encodeMsgs (rest.take (k0 + 1))).length + (encodeMsgs (rest.drop (k0 + 1))).length := by
          rw [henc, List.length_append]
        omega
      have hdropfree : ∀ m ∈ rest.drop (k0 + 1), ¬ EOM <:+: m :=
        fun x hx => h1 x (List.mem_of_mem_drop hx)
      by_cases hr2e : r2 = []
      · subst hr2e
        have hbe : r ++ c = encodeMsgs (rest.take (k0 + 1)) := by
          simpa using hdecomp
        have hsuf : EOM <:+ (r ++ c) := by
          rw [hbe]
          exact eom_suffix_encode _ htk
        have hstep : receiveChunk r c = ([], rest.take (k0 + 1)) := by
          unfold receiveChunk
          rw [if_neg (by omega), if_pos hinf, if_pos hsuf, hsplit]
          rw [List.dropLast_concat]
        have hih := ih [] (rest.drop (k0 + 1)) hdropfree
          (by intro hi; have := hi.length_le; simp [EOM] at this)
          (by simpa using hcancel) hlendrop
        rw [hstep]
        simp only [hih]
        rw [List.take_append_drop]
      · have hsuf : ¬ EOM <:+ (r ++ c) := by
          intro hsufx
          apply hr2e
          rw [hdecomp] at hsufx
          exact suffix_align _ _ hsufx (eom_suffix_encode _ htk) hr2
        have hstep : receiveChunk r c = (r2, rest.take (k0 + 1)) := by
          unfold receiveChunk
          rw [if_neg (by omega), if_pos hinf, if_neg hsuf, hsplit]
          rw [List.dropLast_concat, List.getLastD_concat]
        have hih := ih r2 (rest.drop (k0 + 1)) hdropfree hr2 hcancel hlendrop
        rw [hstep]
        simp only [hih]
        rw [List.take_append_drop]

theorem encodeMsgs_eq_flatten_frameOut (ms : List (List Byte)) :
    encodeMsgs ms = (ms.map frameOut).flatten := by
  induction ms with
  | nil => rfl
  | cons m ms ih => simp [encodeMsgs, frameOut, ih]

theorem feedChunks_cons_eq (buffer c : List Byte) (cs : List (List Byte)) :
    feedChunks buffer (c :: cs) =
      ((feedChunks (receiveChunk buffer c).1 cs).1,
        (receiveChunk buffer c).2 ++ (feedChunks (receiveChunk buffer c).1 cs).2) := rfl

theorem framing_roundtrip_amended (ms chunks : List (List Byte))
    (hfree : ∀ m ∈ ms, ¬ EOM <:+: m)
    (hcap : (encodeMsgs ms).length ≤ MAX_REQUEST_SIZE)
    (hpart : chunks.flatten = encodeMsgs ms) :
    (feedChunks [] chunks).2 = ms ∧
    dropEmpties (feedChunks [] chunks).2 = dropEmpties ms ∧
    (feedChunks [] chunks).1 = [] ∧
    (ms ≠ [] → EOM <:+ encodeMsgs ms) := by
  have h := feedChunks_encode chunks [] ms hfree
    (by intro hi; have := hi.length_le; simp [EOM] at this)
    (by simpa using hpart) hcap
  rw [h]
  exact ⟨rfl, rfl, rfl, fun hne => eom_suffix_encode ms hne⟩

theorem framing_roundtrip_cex :
    ((feedChunks [] [encodeMsgs [List.replicate 10238 97]]).2 = [] ∧
      List.replicate 10238 97 ≠ ([] : List Byte)) ∧
    (dropEmpties (feedChunks [] [encodeMsgs [[10, 10, 120]]]).2 = [] ∧
      ([[10, 10, 120]] : List (List Byte)) ≠ [] ∧ [10, 10, 120] ≠ ([] : List Byte)) ∧
    ((feedChunks [] ([] : List (List Byte))).1 = [] ∧
      ¬ EOM <:+ encodeMsgs ([] : List (List Byte))) := by
  refine ⟨⟨?_, ?_⟩, ⟨?_, ?_, ?_⟩, ?_, ?_⟩
  · have hlen : (([] : List Byte) ++ encodeMsgs [List.replicate 10238 97]).length >
        MAX_REQUEST_SIZE := by
      simp only [List.nil_append, encodeMsgs, List.append_nil, List.length_append,
        List.length_replicate, EOM, MAX_REQUEST_SIZE, BUFFER_SIZE, List.length_cons,
        List.length_nil]
      omega
    have hrc : receiveChunk [] (encodeMsgs [List.replicate 10238 97]) = ([], []) := by
      unfold receiveChunk
      rw [if_pos hlen]
    rw [feedChunks_cons_eq, hrc]
    rfl
  · intro h
    have hlen2 := congrArg List.length h
    rw [List.length_replicate, List.length_nil] at hlen2
    exact absurd hlen2 (by decide)
  · decide
  · decide
  · decide
  · decide
  · decide

theorem framing_roundtrip_amended_witness :
    (feedChunks [] [[97, 10], [10, 120, 98], [99, 10, 10, 120]]).2 = [[97], [98, 99]] ∧
    dropEmpties (feedChunks [] [[97, 10], [10, 120, 98], [99, 10, 10, 120]]).2 =
      dropEmpties [[97], [98, 99]] ∧
    (feedChunks [] [[97, 10], [10, 120, 98], [99, 10, 10, 120]]).1 = [] ∧
    (([[97], [98, 99]] : List (List Byte)) ≠ [] → EOM <:+ encodeMsgs [[97], [98, 99]]) :=
  framing_roundtrip_amended [[97], [98, 99]] [[97, 10], [10, 120, 98], [99, 10, 10, 120]]
    (by decide) (by decide) (by decide)

/-! ### Association-list lemmas -/

theorem lookupKV_cons {κ ν : Type} [DecidableEq κ] (k k3 : κ) (v3 : ν) (rest : List (κ × ν)) :
    lookupKV k ((k3, v3) :: rest) = if k3 = k then some v3 else lookupKV k rest := rfl

theorem eraseKV_cons_self {κ ν : Type} [DecidableEq κ] (k : κ) (v3 : ν) (rest : List (κ × ν)) :
    eraseKV k ((k, v3) :: rest) = eraseKV k rest := by
  simp [eraseKV, List.filter_cons_of_neg]

theorem eraseKV_cons_ne {κ ν : Type} [DecidableEq κ] (k k3 : κ) (v3 : ν) (rest : List (κ × ν))
    (h : k3 ≠ k) : eraseKV k ((k3, v3) :: rest) = (k3, v3) :: eraseKV k rest := by
  simp only [eraseKV]
  rw [List.filter_cons_of_pos]
  simpa using h

theorem lookupKV_insert_self {κ ν : Type} [DecidableEq κ] (k : κ) (v : ν) (l : List (κ × ν)) :
    lookupKV k (insertKV k v l) = some v := by
  simp [insertKV, lookupKV]

theorem lookupKV_erase_ne {κ ν : Type} [DecidableEq κ] (k k2 : κ) (l : List (κ × ν))
    (h : k2 ≠ k) : lookupKV k2 (eraseKV k l) = lookupKV k2 l := by
  induction l with
  | nil => rfl
  | cons p rest ih =>
    match p with
    | (k3, v3) =>
      by_cases hk : k3 = k
      · subst hk
        rw [eraseKV_cons_self, ih, lookupKV_cons, if_neg (fun e => h e.symm)]
      · rw [eraseKV_cons_ne k k3 v3 rest hk, lookupKV_cons, lookupKV_cons, ih]

theorem lookupKV_erase_self {κ ν : Type} [DecidableEq κ] (k : κ) (l : List (κ × ν)) :
    lookupKV k (eraseKV k l) = none := by
  induction l with
  | nil => rfl
  | cons p rest ih =>
    match p with
    | (k3, v3) =>
      by_cases hk : k3 = k
      · subst hk
        rw [eraseKV_cons_self, ih]
      · rw [eraseKV_cons_ne k k3 v3 rest hk, lookupKV_cons, if_neg hk, ih]

theorem lookupKV_insert_ne {κ ν : Type} [DecidableEq κ] (k k2 : κ) (v : ν) (l : List (κ × ν))
    (h : k2 ≠ k) : lookupKV k2 (insertKV k v l) = lookupKV k2 l := by
  simp only [insertKV, lookupKV]
  rw [if_neg (fun e => h e.symm)]
  exact lookupKV_erase_ne k k2 l h

theorem keysKV_eraseKV {κ ν : Type} [DecidableEq κ] (k : κ) (l : List (κ × ν)) :
    keysKV (eraseKV k l) = (keysKV l).filter (fun x => decide (x ≠ k)) := by
  induction l with
  | nil => rfl
  | cons p rest ih =>
    match p with
    | (k3, v3) =>
      by_cases hk : k3 = k
      · subst hk
        rw [eraseKV_cons_self, ih]
        show _ = List.filter _ (k3 :: _)
        rw [List.filter_cons_of_neg (by simp)]
        rfl
      · rw [eraseKV_cons_ne k k3 v3 rest hk]
        show k3 :: keysKV (eraseKV k rest) = List.filter _ (k3 :: keysKV rest)
        rw [List.filter_cons_of_pos (by simpa using hk), ih]

theorem mem_keysKV_eraseKV {κ ν : Type} [DecidableEq κ] (k k2 : κ) (l : List (κ × ν)) :
    k2 ∈ keysKV (eraseKV k l) ↔ k2 ∈ keysKV l ∧ k2 ≠ k := by
  rw [keysKV_eraseKV]
  simp [List.mem_filter]

theorem nodup_keysKV_eraseKV {κ ν : Type} [DecidableEq κ] (k : κ) (l : List (κ × ν))
    (h : (keysKV l).Nodup) : (keysKV (eraseKV k l)).Nodup := by
  rw [keysKV_eraseKV]
  exact h.filter _

theorem keysKV_insertKV {κ ν : Type} [DecidableEq κ] (k : κ) (v : ν) (l : List (κ × ν)) :
    keysKV (insertKV k v l) = k :: keysKV (eraseKV k l) := rfl

theorem mem_keysKV_insertKV {κ ν : Type} [DecidableEq κ] (k k2 : κ) (v : ν) (l : List (κ × ν)) :
    k2 ∈ keysKV (insertKV k v l) ↔ k2 = k ∨ k2 ∈ keysKV l := by
  rw [keysKV_insertKV]
  simp only [List.mem_cons, mem_keysKV_eraseKV]
  constructor
  · rintro (h | ⟨h, _⟩)
    · exact Or.inl h
    · exact Or.inr h
  · rintro (h | h)
    · exact Or.inl h
    · by_cases hk : k2 = k
      · exact Or.inl hk
      · exact Or.inr ⟨h, hk⟩

theorem nodup_keysKV_insertKV {κ ν : Type} [DecidableEq κ] (k : κ) (v : ν) (l : List (κ × ν))
    (h : (keysKV l).Nodup) : (keysKV (insertKV k v l)).Nodup := by
  rw [keysKV_insertKV]
  refine List.Nodup.cons ?_ (nodup_keysKV_eraseKV k l h)
  intro hmem
  rw [mem_keysKV_eraseKV] at hmem
  exact hmem.2 rfl

theorem lookupKV_mem {κ ν : Type} [DecidableEq κ] (k : κ) (v : ν) (l : List (κ × ν))
    (h : lookupKV k l = some v) : (k, v) ∈ l := by
  induction l with
  | nil => simp [lookupKV] at h
  | cons p rest ih =>
    match p with
    | (k3, v3) =>
      rw [lookupKV_cons] at h
      by_cases hk : k3 = k
      · rw [if_pos hk] at h
        injection h with h
        subst hk
        subst h
        simp
      · rw [if_neg hk] at h
        simp [ih h]

theorem mem_keysKV_of_lookup {κ ν : Type} [DecidableEq κ] (k : κ) (v : ν) (l : List (κ × ν))
    (h : lookupKV k l = some v) : k ∈ keysKV l :=
  List.mem_map_of_mem Prod.fst (lookupKV_mem k v l h)

theorem lookupKV_eq_none_iff {κ ν : Type} [DecidableEq κ] (k : κ) (l : List (κ × ν)) :
    lookupKV k l = none ↔ k ∉ keysKV l := by
  induction l with
  | nil => simp [lookupKV, keysKV]
  | cons p rest ih =>
    match p with
    | (k3, v3) =>
      rw [lookupKV_cons]
      by_cases hk : k3 = k
      · subst hk
        simp [keysKV]
      · rw [if_neg hk]
        show _ ↔ k ∉ keysKV ((k3, v3) :: rest)
        have : keysKV ((k3, v3) :: rest) = k3 :: keysKV rest := rfl
        rw [this]
        simp only [List.mem_cons, not_or]
        rw [ih]
        constructor
        · exact fun h2 => ⟨fun e => hk e.symm, h2⟩
        · exact fun h2 => h2.2

theorem lookupKV_isSome_of_mem_keys {κ ν : Type} [DecidableEq κ] (k : κ) (l : List (κ × ν))
    (h : k ∈ keysKV l) : ∃ v, lookupKV k l = some v := by
  match he : lookupKV k l with
  | some v => exact ⟨v, rfl⟩
  | none => exact absurd ((lookupKV_eq_none_iff k l).mp he) (by simp [h])

theorem lookupKV_of_mem_nodup {κ ν : Type} [DecidableEq κ] (k : κ) (v : ν) (l : List (κ × ν))
    (hnd : (keysKV l).Nodup) (h : (k, v) ∈ l) : lookupKV k l = some v := by
  induction l with
  | nil => simp at h
  | cons p rest ih =>
    match p with
    | (k3, v3) =>
      have hnd2 : k3 ∉ keysKV rest ∧ (keysKV rest).Nodup := by
        have : keysKV ((k3, v3) :: rest) = k3 :: keysKV rest := rfl
        rw [this] at hnd
        exact List.nodup_cons.mp hnd
      rcases List.mem_cons.mp h with he | hm
      · injection he with e1 e2
        subst e1
        subst e2
        rw [lookupKV_cons, if_pos rfl]
      · have hk : k3 ≠ k := by
          intro e
          subst e
          exact hnd2.1 (List.mem_map_of_mem Prod.fst hm)
        rw [lookupKV_cons, if_neg hk]
        exact ih hnd2.2 hm

/-! ### Operation characterization lemmas

Each lemma unpacks a successful run of a server operation into the
conditions it required and the exact state it produced. -/

theorem ensure_eq_some (p : Prop) [Decidable p] (u : Unit) : ensure p = some u ↔ p := by
  unfold ensure
  split <;> simp_all

theorem connectionRemove_spec (s : ServerState) (fn : Nat) (s2 : ServerState)
    (h : connectionRemove s fn = some s2) :
    fn ∈ keysKV s.epoll ∧ fn ∈ s.connections ∧
    s2 = { s with
      epoll := eraseKV fn s.epoll,
      connections := s.connections.erase fn,
      pending := s.pending.erase fn } := by
  simp only [connectionRemove, Option.bind_eq_bind, Option.bind_eq_some,
    ensure_eq_some, Option.some.injEq] at h
  obtain ⟨u, hp, hs⟩ := h
  exact ⟨hp.1, hp.2, hs.symm⟩

theorem clientRemove_spec (s : ServerState) (cid : ClientId) (s2 : ServerState)
    (h : clientRemove s cid = some s2) :
    ∃ c tps, lookupKV cid s.clients = some c ∧
      removeFromTopics cid c.topics s.topics = some tps ∧
      s2.topics = tps ∧ s2.clients = eraseKV cid s.clients ∧
      s2.last_refresh = s.last_refresh ∧
      ((c.connected = true ∧
         c.fileno ∈ keysKV s.connected ∧ c.name ∈ keysKV s.connected_names ∧
         c.fileno ∈ keysKV s.epoll ∧ c.fileno ∈ s.connections ∧
         s2.connected = eraseKV c.fileno s.connected ∧
         s2.connected_names = eraseKV c.name s.connected_names ∧
         s2.temp_lost = s.temp_lost ∧
         s2.epoll = eraseKV c.fileno s.epoll ∧
         s2.connections = s.connections.erase c.fileno ∧
         s2.pending = s.pending.erase c.fileno) ∨
       (c.connected = false ∧
         c.name ∈ keysKV s.temp_lost ∧
         s2.connected = s.connected ∧
         s2.connected_names = s.connected_names ∧
         s2.temp_lost = eraseKV c.name s.temp_lost ∧
         s2.epoll = s.epoll ∧ s2.connections = s.connections ∧
         s2.pending = s.pending)) := by
  rcases hc : lookupKV cid s.clients with _ | c
  · rw [clientRemove] at h
    rw [hc] at h
    simp at h
  rcases hcc : c.connected with _ | _
  · rw [clientRemove] at h
    rw [hc] at h
    simp only [Option.bind_eq_bind, Option.some_bind, hcc, Bool.false_eq_true, if_false,
      Option.bind_eq_some, ensure_eq_some, Option.some.injEq] at h
    obtain ⟨u, hmem, tps, htps, hs2⟩ := h
    subst hs2
    exact ⟨c, tps, rfl, htps, rfl, rfl, rfl,
      Or.inr ⟨hcc, hmem, rfl, rfl, rfl, rfl, rfl, rfl⟩⟩
  · rw [clientRemove] at h
    rw [hc] at h
    simp only [Option.bind_eq_bind, Option.some_bind, hcc, if_true,
      Option.bind_eq_some, ensure_eq_some, Option.some.injEq] at h
    obtain ⟨u, hmem, tps, htps, s3, hs3, hs2⟩ := h
    obtain ⟨hep, hco, he3⟩ := connectionRemove_spec _ _ _ hs3
    subst he3
    subst hs2
    exact ⟨c, tps, rfl, htps, rfl, rfl, rfl,
      Or.inl ⟨hcc, hmem.1, hmem.2, hep, hco, rfl, rfl, rfl, rfl, rfl, rfl⟩⟩

theorem clientRestore_spec (s : ServerState) (fn : Nat) (client_name : PyStr)
    (s2 : ServerState) (out : List Byte)
    (h : clientRestore s fn client_name = some (s2, out)) :
    ∃ cid c, lookupKV client_name s.temp_lost = some cid ∧
      lookupKV cid s.clients = some c ∧
      fn ∈ s.connections ∧ fn ∈ s.pending ∧
      out = (strBytes ("RESTORED ".data ++ client_name) ++ EOM) ++
        (strBytes (joinSpaces c.topics) ++ EOM) ∧
      s2.pending = s.pending.erase fn ∧
      s2.temp_lost = eraseKV client_name s.temp_lost ∧
      s2.connected = insertKV fn cid s.connected ∧
      s2.connected_names = insertKV client_name cid s.connected_names ∧
      s2.clients = insertKV cid { c with fileno := fn, connected := true } s.clients ∧
      s2.topics = s.topics ∧ s2.connections = s.connections ∧
      s2.last_refresh = s.last_refresh ∧
      ((c.message_stream ≠ [] ∧ fn ∈ keysKV s.epoll ∧
          s2.epoll = insertKV fn true s.epoll) ∨
        (c.message_stream = [] ∧ s2.epoll = s.epoll)) := by
  rcases hcid : lookupKV client_name s.temp_lost with _ | cid
  · rw [clientRestore] at h
    rw [hcid] at h
    simp at h
  rcases hc : lookupKV cid s.clients with _ | c
  · rw [clientRestore] at h
    rw [hcid] at h
    simp only [Option.bind_eq_bind, Option.some_bind] at h
    rw [hc] at h
    simp at h
  rw [clientRestore] at h
  rw [hcid] at h
  simp only [Option.bind_eq_bind, Option.some_bind] at h
  rw [hc] at h
  by_cases hstream : c.message_stream = []
  · simp only [Option.bind_eq_bind, Option.some_bind, Option.bind_eq_some, ensure_eq_some,
      Client.message_stream_size, hstream, List.length_nil, ne_eq, not_true_eq_false,
      if_false, Option.some.injEq, Prod.mk.injEq] at h
    obtain ⟨u, ⟨hco, hpend⟩, hs2, hout⟩ := h
    subst hs2
    refine ⟨cid, c, rfl, hc, hco, hpend, hout.symm, rfl, rfl, rfl, rfl, ?_, rfl, rfl, rfl,
      Or.inr ⟨hstream, rfl⟩⟩
    rw [hstream]
  · have hlen : ({ c with fileno := fn, connected := true } :
        Client).message_stream_size ≠ 0 := by
      simp [Client.message_stream_size, hstream]
    simp only [Option.bind_eq_bind, Option.some_bind, Option.bind_eq_some,
      ensure_eq_some] at h
    obtain ⟨u, ⟨hco, hpend⟩, hrest⟩ := h
    rw [if_pos hlen] at hrest
    simp only [Option.bind_eq_bind, Option.bind_eq_some, ensure_eq_some,
      Option.some.injEq, Prod.mk.injEq] at hrest
    obtain ⟨u2, hep, hs2, hout⟩ := hrest
    subst hs2
    exact ⟨cid, c, rfl, hc, hco, hpend, hout.symm, rfl, rfl, rfl, rfl, rfl, rfl, rfl, rfl,
      Or.inl ⟨hstream, hep, rfl⟩⟩

theorem clientAdd_spec (s : ServerState) (fn : Nat) (client_name : PyStr)
    (s2 : ServerState) (out : List Byte)
    (h : clientAdd s fn client_name = some (s2, out)) :
    fn ∈ s.connections ∧ fn ∈ s.pending ∧
    out = strBytes "OK: Conn accepted".data ++ EOM ∧
    s2.connected = insertKV fn (freshId s) s.connected ∧
    s2.connected_names = insertKV client_name (freshId s) s.connected_names ∧
    s2.clients = insertKV (freshId s)
      { name := client_name, fileno := fn, connected := true, lost_time := 0,
        message_stream := [], topics := [] } s.clients ∧
    s2.pending = s.pending.erase fn ∧
    s2.temp_lost = s.temp_lost ∧ s2.topics = s.topics ∧
    s2.connections = s.connections ∧ s2.epoll = s.epoll ∧
    s2.last_refresh = s.last_refresh := by
  simp only [clientAdd, Option.bind_eq_bind, Option.bind_eq_some, ensure_eq_some,
    Option.some.injEq, Prod.mk.injEq] at h
  obtain ⟨u, ⟨hco, hpend⟩, hs2, hout⟩ := h
  subst hs2
  exact ⟨hco, hpend, hout.symm, rfl, rfl, rfl, rfl, rfl, rfl, rfl, rfl, rfl⟩

theorem clientLost_spec (s : ServerState) (fn : Nat) (now : ℚ) (s2 : ServerState)
    (h : clientLost s fn now = some s2) :
    ∃ cid c, lookupKV fn s.connected = some cid ∧
      lookupKV cid s.clients = some c ∧
      c.name ∈ keysKV s.connected_names ∧
      fn ∈ keysKV s.epoll ∧ fn ∈ s.connections ∧
      s2.connected = eraseKV fn s.connected ∧
      s2.connected_names = eraseKV c.name s.connected_names ∧
      s2.temp_lost = insertKV c.name cid s.temp_lost ∧
      s2.clients = insertKV cid
        { c with fileno := 0, connected := false, lost_time := now } s.clients ∧
      s2.topics = s.topics ∧
      s2.epoll = eraseKV fn s.epoll ∧
      s2.connections = s.connections.erase fn ∧
      s2.pending = s.pending.erase fn ∧
      s2.last_refresh = s.last_refresh := by
  rcases hcid : lookupKV fn s.connected with _ | cid
  · rw [clientLost] at h
    rw [hcid] at h
    simp at h
  rcases hc : lookupKV cid s.clients with _ | c
  · rw [clientLost] at h
    rw [hcid] at h
    simp only [Option.bind_eq_bind, Option.some_bind] at h
    rw [hc] at h
    simp at h
  rw [clientLost] at h
  rw [hcid] at h
  simp only [Option.bind_eq_bind, Option.some_bind] at h
  rw [hc] at h
  simp only [Option.bind_eq_bind, Option.some_bind, Option.bind_eq_some, ensure_eq_some] at h
  obtain ⟨u, hmem, hcr⟩ := h
  obtain ⟨hep, hco, hs2⟩ := connectionRemove_spec _ _ _ hcr
  subst hs2
  exact ⟨cid, c, rfl, hc, hmem, hep, hco, rfl, rfl, rfl, rfl, rfl, rfl, rfl, rfl, rfl⟩

theorem processConnect_spec (s : ServerState) (fn : Nat) (client_name : PyStr)
    (s2 : ServerState) (out : List Byte)
    (h : processConnect s fn client_name = some (s2, out)) :
    client_name ≠ [] ∧
    ((client_name ∈ keysKV s.connected_names ∧ fn ∈ s.connections ∧
        connectionRemove s fn = some s2 ∧
        out = strBytes "ERROR: Name already taken".data ++ EOM) ∨
      (client_name ∉ keysKV s.connected_names ∧ client_name ∈ keysKV s.temp_lost ∧
        clientRestore s fn client_name = some (s2, out)) ∨
      (client_name ∉ keysKV s.connected_names ∧ client_name ∉ keysKV s.temp_lost ∧
        clientAdd s fn client_name = some (s2, out))) := by
  simp only [processConnect, Option.bind_eq_bind, Option.bind_eq_some, ensure_eq_some] at h
  obtain ⟨u, hne, h⟩ := h
  refine ⟨hne, ?_⟩
  by_cases h1 : client_name ∈ keysKV s.connected_names
  · rw [if_pos h1] at h
    simp only [Option.bind_eq_bind, Option.bind_eq_some, ensure_eq_some,
      Option.some.injEq, Prod.mk.injEq] at h
    obtain ⟨u2, hco, s3, hcr, hs2, hout⟩ := h
    subst hs2
    exact Or.inl ⟨h1, hco, hcr, hout.symm⟩
  · rw [if_neg h1] at h
    by_cases h2 : client_name ∈ keysKV s.temp_lost
    · rw [if_pos h2] at h
      exact Or.inr (Or.inl ⟨h1, h2, h⟩)
    · rw [if_neg h2] at h
      exact Or.inr (Or.inr ⟨h1, h2, h⟩)

theorem processSubscribe_spec (s : ServerState) (fn : Nat) (topic : PyStr)
    (s2 : ServerState)
    (h : processSubscribe s fn topic = some s2) :
    topic ≠ [] ∧
    ∃ cid c, lookupKV fn s.connected = some cid ∧ lookupKV cid s.clients = some c ∧
      ((topic ∈ c.topics ∧ s2 = { s with clients := insertKV cid c s.clients }) ∨
        (topic ∉ c.topics ∧
          ((lookupKV topic s.topics = none ∧
              s2 = { s with
                clients := insertKV cid { c with topics := c.topics ++ [topic] } s.clients,
                topics := insertKV topic [cid] s.topics }) ∨
            (∃ set, lookupKV topic s.topics = some set ∧
              s2 = { s with
                clients := insertKV cid { c with topics := c.topics ++ [topic] } s.clients,
                topics := insertKV topic (if cid ∈ set then set else set ++ [cid])
                  s.topics })))) := by
  simp only [processSubscribe, Option.bind_eq_bind, Option.bind_eq_some, ensure_eq_some] at h
  obtain ⟨u, hne, cid, hcid, c, hc, h⟩ := h
  refine ⟨hne, cid, c, hcid, hc, ?_⟩
  by_cases hmem : topic ∈ c.topics
  · rw [Client.subscribe, if_pos hmem] at h
    simp only [Bool.false_eq_true, if_false, Option.some.injEq] at h
    exact Or.inl ⟨hmem, h.symm⟩
  · rw [Client.subscribe, if_neg hmem] at h
    simp only [if_true] at h
    rcases hts : lookupKV topic s.topics with _ | set
    · rw [hts] at h
      simp only [Option.some.injEq] at h
      exact Or.inr ⟨hmem, Or.inl ⟨rfl, h.symm⟩⟩
    · rw [hts] at h
      simp only [Option.some.injEq] at h
      exact Or.inr ⟨hmem, Or.inr ⟨set, rfl, h.symm⟩⟩

theorem processUnsubscribe_spec (s : ServerState) (fn : Nat) (topic : PyStr)
    (s2 : ServerState)
    (h : processUnsubscribe s fn topic = some s2) :
    topic ≠ [] ∧
    ∃ cid c, lookupKV fn s.connected = some cid ∧ lookupKV cid s.clients = some c ∧
      ((topic ∉ c.topics ∧ s2 = { s with clients := insertKV cid c s.clients }) ∨
        (topic ∈ c.topics ∧
          ∃ set, lookupKV topic s.topics = some set ∧ cid ∈ set ∧
            ((set.erase cid = [] ∧
                s2 = { s with
                  clients := insertKV cid { c with topics := c.topics.erase topic } s.clients,
                  topics := eraseKV topic s.topics }) ∨
              (set.erase cid ≠ [] ∧
                s2 = { s with
                  clients := insertKV cid { c with topics := c.topics.erase topic } s.clients,
                  topics := insertKV topic (set.erase cid) s.topics })))) := by
  simp only [processUnsubscribe, Option.bind_eq_bind, Option.bind_eq_some, ensure_eq_some] at h
  obtain ⟨u, hne, cid, hcid, c, hc, h⟩ := h
  refine ⟨hne, cid, c, hcid, hc, ?_⟩
  by_cases hmem : topic ∈ c.topics
  · rw [Client.unsubscribe, if_pos hmem] at h
    simp only [if_true] at h
    rcases hts : lookupKV topic s.topics with _ | set
    · rw [hts] at h
      simp at h
    · rw [hts] at h
      simp only [Option.some_bind, Option.bind_eq_bind, Option.bind_eq_some,
        ensure_eq_some] at h
      obtain ⟨u2, hin, h⟩ := h
      by_cases hemp : set.erase cid = []
      · rw [if_pos hemp] at h
        simp only [Option.some.injEq] at h
        exact Or.inr ⟨hmem, set, rfl, hin, Or.inl ⟨hemp, h.symm⟩⟩
      · rw [if_neg hemp] at h
        simp only [Option.some.injEq] at h
        exact Or.inr ⟨hmem, set, rfl, hin, Or.inr ⟨hemp, h.symm⟩⟩
  · rw [Client.unsubscribe, if_neg hmem] at h
    simp only [Bool.false_eq_true, if_false, Option.some.injEq] at h
    exact Or.inl ⟨hmem, h.symm⟩

theorem publishOne_spec (message : List Byte) (s : ServerState) (cid : ClientId)
    (s2 : ServerState) (h : publishOne message s cid = some s2) :
    ∃ c, lookupKV cid s.clients = some c ∧
      s2.clients = insertKV cid (c.add_message message).1 s.clients ∧
      s2.connected = s.connected ∧ s2.connected_names = s.connected_names ∧
      s2.temp_lost = s.temp_lost ∧ s2.topics = s.topics ∧
      s2.pending = s.pending ∧ s2.connections = s.connections ∧
      s2.last_refresh = s.last_refresh ∧
      (((c.add_message message).2 = message.length ∧
          (c.add_message message).1.fileno ∈ keysKV s.connected ∧
          (c.add_message message).1.fileno ∈ keysKV s.epoll ∧
          s2.epoll = insertKV (c.add_message message).1.fileno true s.epoll) ∨
        (¬((c.add_message message).2 = message.length ∧
            (c.add_message message).1.fileno ∈ keysKV s.connected) ∧
          s2.epoll = s.epoll)) := by
  simp only [publishOne, Option.bind_eq_bind, Option.bind_eq_some, ensure_eq_some] at h
  obtain ⟨c, hc, h⟩ := h
  refine ⟨c, hc, ?_⟩
  by_cases hlen : (c.add_message message).2 = message.length
  · rw [if_pos hlen] at h
    by_cases hfn : (c.add_message message).1.fileno ∈ keysKV s.connected
    · rw [if_pos hfn] at h
      simp only [Option.bind_eq_bind, Option.bind_eq_some, ensure_eq_some,
        Option.some.injEq] at h
      obtain ⟨u, hep, hs2⟩ := h
      subst hs2
      exact ⟨rfl, rfl, rfl, rfl, rfl, rfl, rfl, rfl, Or.inl ⟨hlen, hfn, hep, rfl⟩⟩
    · rw [if_neg hfn] at h
      simp only [Option.some.injEq] at h
      subst h
      exact ⟨rfl, rfl, rfl, rfl, rfl, rfl, rfl, rfl,
        Or.inr ⟨fun hx => hfn hx.2, rfl⟩⟩
  · rw [if_neg hlen] at h
    simp only [Option.some.injEq] at h
    subst h
    exact ⟨rfl, rfl, rfl, rfl, rfl, rfl, rfl, rfl,
      Or.inr ⟨fun hx => hlen hx.1, rfl⟩⟩

theorem sendMessageChunk_spec (s : ServerState) (fn : Nat) (s2 : ServerState)
    (out : List Byte) (h : sendMessageChunk s fn = some (s2, out)) :
    ∃ cid c, lookupKV fn s.connected = some cid ∧ lookupKV cid s.clients = some c ∧
      fn ∈ s.connections ∧
      out = (c.get_message_chunk BUFFER_SIZE).2.1 ∧
      s2.clients = insertKV cid (c.get_message_chunk BUFFER_SIZE).1 s.clients ∧
      s2.connected = s.connected ∧ s2.connected_names = s.connected_names ∧
      s2.temp_lost = s.temp_lost ∧ s2.topics = s.topics ∧
      s2.pending = s.pending ∧ s2.connections = s.connections ∧
      (((c.get_message_chunk BUFFER_SIZE).2.2 = 0 ∧ fn ∈ keysKV s.epoll ∧
          s2.epoll = insertKV fn false s.epoll) ∨
        ((c.get_message_chunk BUFFER_SIZE).2.2 ≠ 0 ∧ s2.epoll = s.epoll)) := by
  simp only [sendMessageChunk, Option.bind_eq_bind, Option.bind_eq_some, ensure_eq_some] at h
  obtain ⟨cid, hcid, c, hc, u, ⟨hlen, hco⟩, h⟩ := h
  refine ⟨cid, c, hcid, hc, hco, ?_⟩
  by_cases hrem : (c.get_message_chunk BUFFER_SIZE).2.2 = 0
  · rw [if_pos hrem] at h
    simp only [Option.bind_eq_bind, Option.bind_eq_some, ensure_eq_some,
      Option.some.injEq, Prod.mk.injEq] at h
    obtain ⟨u2, hep, hs2, hout⟩ := h
    subst hs2
    exact ⟨hout.symm, rfl, rfl, rfl, rfl, rfl, rfl, rfl, Or.inl ⟨hrem, hep, rfl⟩⟩
  · rw [if_neg hrem] at h
    simp only [Option.some.injEq, Prod.mk.injEq] at h
    obtain ⟨hs2, hout⟩ := h
    subst hs2
    exact ⟨hout.symm, rfl, rfl, rfl, rfl, rfl, rfl, rfl, Or.inr ⟨hrem, rfl⟩⟩

/-! ### Claim C2: name uniqueness -/

theorem NamesOK_of_eq (s s2 : ServerState) (h : NamesOK s)
    (h1 : s2.connected_names = s.connected_names) (h2 : s2.temp_lost = s.temp_lost) :
    NamesOK s2 := by
  unfold NamesOK at *
  rw [h1, h2]
  exact h

theorem NamesOK_erase_cn (s s2 : ServerState) (n : PyStr) (h : NamesOK s)
    (h1 : s2.connected_names = eraseKV n s.connected_names)
    (h2 : s2.temp_lost = s.temp_lost) : NamesOK s2 := by
  obtain ⟨hn1, hn2, hd⟩ := h
  refine ⟨?_, ?_, ?_⟩
  · rw [h1]
    exact nodup_keysKV_eraseKV n _ hn1
  · rw [h2]
    exact hn2
  · intro x hx
    rw [h1, mem_keysKV_eraseKV] at hx
    rw [h2]
    exact hd x hx.1

theorem NamesOK_erase_tl (s s2 : ServerState) (n : PyStr) (h : NamesOK s)
    (h1 : s2.connected_names = s.connected_names)
    (h2 : s2.temp_lost = eraseKV n s.temp_lost) : NamesOK s2 := by
  obtain ⟨hn1, hn2, hd⟩ := h
  refine ⟨?_, ?_, ?_⟩
  · rw [h1]
    exact hn1
  · rw [h2]
    exact nodup_keysKV_eraseKV n _ hn2
  · intro x hx
    rw [h1] at hx
    rw [h2, mem_keysKV_eraseKV]
    intro hc
    exact hd x hx hc.1

theorem NamesOK_move_to_tl (s s2 : ServerState) (n : PyStr) (cid : ClientId)
    (h : NamesOK s)
    (h1 : s2.connected_names = eraseKV n s.connected_names)
    (h2 : s2.temp_lost = insertKV n cid s.temp_lost) : NamesOK s2 := by
  obtain ⟨hn1, hn2, hd⟩ := h
  refine ⟨?_, ?_, ?_⟩
  · rw [h1]
    exact nodup_keysKV_eraseKV n _ hn1
  · rw [h2]
    exact nodup_keysKV_insertKV n cid _ hn2
  · intro x hx
    rw [h1, mem_keysKV_eraseKV] at hx
    rw [h2, mem_keysKV_insertKV]
    rintro (he | hm)
    · exact hx.2 he
    · exact hd x hx.1 hm

theorem NamesOK_move_to_cn (s s2 : ServerState) (n : PyStr) (cid : ClientId)
    (h : NamesOK s)
    (h1 : s2.connected_names = insertKV n cid s.connected_names)
    (h2 : s2.temp_lost = eraseKV n s.temp_lost) : NamesOK s2 := by
  obtain ⟨hn1, hn2, hd⟩ := h
  refine ⟨?_, ?_, ?_⟩
  · rw [h1]
    exact nodup_keysKV_insertKV n cid _ hn1
  · rw [h2]
    exact nodup_keysKV_eraseKV n _ hn2
  · intro x hx
    rw [h1, mem_keysKV_insertKV] at hx
    rw [h2, mem_keysKV_eraseKV]
    rintro ⟨hm, hne⟩
    rcases hx with he | hm2
    · exact hne he
    · exact hd x hm2 hm

theorem NamesOK_insert_cn (s s2 : ServerState) (n : PyStr) (cid : ClientId)
    (h : NamesOK s) (hfresh : n ∉ keysKV s.temp_lost)
    (h1 : s2.connected_names = insertKV n cid s.connected_names)
    (h2 : s2.temp_lost = s.temp_lost) : NamesOK s2 := by
  obtain ⟨hn1, hn2, hd⟩ := h
  refine ⟨?_, ?_, ?_⟩
  · rw [h1]
    exact nodup_keysKV_insertKV n cid _ hn1
  · rw [h2]
    exact hn2
  · intro x hx
    rw [h1, mem_keysKV_insertKV] at hx
    rw [h2]
    rcases hx with he | hm
    · rw [he]
      exact hfresh
    · exact hd x hm

/-- Claim C2: at every point between loop ticks the set of connected-client
names and the set of lost-client names are disjoint and duplicate-free,
and every operation — `CONNECT` accept/restore/refuse
(`Server.__process_connect`), a peer close while bound
(`Server.__client_lost`) and permanent removal (`Server.__client_remove`)
— preserves this. -/
theorem name_uniqueness_preserved (s : ServerState) (h : NamesOK s) :
    NamesOK s ∧
    (∀ fn client_name s2 out, processConnect s fn client_name = some (s2, out) →
      NamesOK s2) ∧
    (∀ fn now s2, clientLost s fn now = some s2 → NamesOK s2) ∧
    (∀ cid s2, clientRemove s cid = some s2 → NamesOK s2) := by
  refine ⟨h, ?_, ?_, ?_⟩
  · intro fn client_name s2 out hcall
    obtain ⟨hne, hcase⟩ := processConnect_spec s fn client_name s2 out hcall
    rcases hcase with ⟨hmem, hco, hcr, hout⟩ | ⟨hno, hmem, hcr⟩ | ⟨hno1, hno2, hca⟩
    · obtain ⟨hep, hco2, hs2⟩ := connectionRemove_spec _ _ _ hcr
      subst hs2
      exact NamesOK_of_eq s _ h rfl rfl
    · obtain ⟨cid, c, hcid, hc, hco, hpend, hout, hp, htl, hcon, hcn, hcl, htp, hco2, hlr,
        hepoll⟩ := clientRestore_spec _ _ _ _ _ hcr
      exact NamesOK_move_to_cn s s2 client_name cid h hcn htl
    · obtain ⟨hco, hpend, hout, hcon, hcn, hcl, hp, htl, htp, hco2, hep, hlr⟩ :=
        clientAdd_spec _ _ _ _ _ hca
      exact NamesOK_insert_cn s s2 client_name (freshId s) h hno2 hcn htl
  · intro fn now s2 hcall
    obtain ⟨cid, c, hcid, hc, hmem, hep, hco, hcon, hcn, htl, hcl, htp, hep2, hco2, hp,
      hlr⟩ := clientLost_spec _ _ _ _ hcall
    exact NamesOK_move_to_tl s s2 c.name cid h hcn htl
  · intro cid s2 hcall
    obtain ⟨c, tps, hc, hrt, htp, hcl, hlr, hcase⟩ := clientRemove_spec _ _ _ hcall
    rcases hcase with ⟨hcc, hm1, hm2, hm3, hm4, hcon, hcn, htl, hep, hco, hp⟩ |
      ⟨hcc, hm1, hcon, hcn, htl, hep, hco, hp⟩
    · exact NamesOK_erase_cn s s2 c.name h hcn htl
    · exact NamesOK_erase_tl s s2 c.name h hcn htl

theorem name_uniqueness_preserved_witness :
    NamesOK c2state ∧
    (∀ fn client_name s2 out, processConnect c2state fn client_name = some (s2, out) →
      NamesOK s2) ∧
    (∀ fn now s2, clientLost c2state fn now = some s2 → NamesOK s2) ∧
    (∀ cid s2, clientRemove c2state cid = some s2 → NamesOK s2) :=
  name_uniqueness_preserved c2state (by simp only [NamesOK]; decide)

/-! ### Claim C3: topic index consistency -/

theorem mem_eraseKV {κ ν : Type} [DecidableEq κ] (k : κ) (p : κ × ν) (l : List (κ × ν)) :
    p ∈ eraseKV k l ↔ p ∈ l ∧ p.1 ≠ k := by
  simp [eraseKV, List.mem_filter]

theorem mem_insertKV {κ ν : Type} [DecidableEq κ] (k : κ) (v : ν) (p : κ × ν)
    (l : List (κ × ν)) :
    p ∈ insertKV k v l ↔ p = (k, v) ∨ (p ∈ l ∧ p.1 ≠ k) := by
  simp [insertKV, mem_eraseKV]

theorem lookupKV_insertKV {κ ν : Type} [DecidableEq κ] (k k2 : κ) (v : ν)
    (l : List (κ × ν)) :
    lookupKV k2 (insertKV k v l) = if k2 = k then some v else lookupKV k2 l := by
  by_cases h : k2 = k
  · subst h
    rw [if_pos rfl]
    exact lookupKV_insert_self k2 v l
  · rw [if_neg h]
    exact lookupKV_insert_ne k k2 v l h

theorem lookupKV_eraseKV {κ ν : Type} [DecidableEq κ] (k k2 : κ) (l : List (κ × ν)) :
    lookupKV k2 (eraseKV k l) = if k2 = k then none else lookupKV k2 l := by
  by_cases h : k2 = k
  · subst h
    rw [if_pos rfl]
    exact lookupKV_erase_self k2 l
  · rw [if_neg h]
    exact lookupKV_erase_ne k k2 l h

/-- Characterization of the topic-removal loop of `Server.__client_remove`:
topics not in `ts` keep their entry; each topic in `ts` had the client in
its set and loses it, the entry disappearing when the set empties. -/
theorem removeFromTopics_spec (cid : ClientId) (ts : List PyStr)
    (tps tps2 : List (PyStr × List ClientId))
    (hnd : ts.Nodup) (h : removeFromTopics cid ts tps = some tps2) :
    ((keysKV tps).Nodup → (keysKV tps2).Nodup) ∧
    (∀ t, t ∉ ts → lookupKV t tps2 = lookupKV t tps) ∧
    (∀ t ∈ ts, ∃ set, lookupKV t tps = some set ∧ cid ∈ set ∧
      lookupKV t tps2 = (if set.erase cid = [] then none else some (set.erase cid))) := by
  induction ts generalizing tps with
  | nil =>
    simp only [removeFromTopics, Option.some.injEq] at h
    subst h
    exact ⟨fun x => x, fun t _ => rfl, by simp⟩
  | cons t rest ih =>
    simp only [removeFromTopics, Option.bind_eq_bind, Option.bind_eq_some,
      ensure_eq_some] at h
    obtain ⟨set, hset, u, hin, hrec⟩ := h
    have hndr : rest.Nodup := (List.nodup_cons.mp hnd).2
    have htnr : t ∉ rest := (List.nodup_cons.mp hnd).1
    obtain ⟨ihnd, ihout, ihin⟩ := ih _ hndr hrec
    constructor
    · intro hndk
      apply ihnd
      by_cases hemp : set.erase cid = []
      · rw [if_pos hemp]
        exact nodup_keysKV_eraseKV t tps hndk
      · rw [if_neg hemp]
        exact nodup_keysKV_insertKV t _ tps hndk
    constructor
    · intro t2 ht2
      have ht2t : t2 ≠ t := fun e => ht2 (by simp [e])
      have ht2r : t2 ∉ rest := fun e => ht2 (by simp [e])
      rw [ihout t2 ht2r]
      by_cases hemp : set.erase cid = []
      · rw [if_pos hemp, lookupKV_eraseKV, if_neg ht2t]
      · rw [if_neg hemp, lookupKV_insertKV, if_neg ht2t]
    · intro t2 ht2
      rcases List.mem_cons.mp ht2 with he | hm
      · subst he
        refine ⟨set, hset, hin, ?_⟩
        rw [ihout t2 htnr]
        by_cases hemp : set.erase cid = []
        · rw [if_pos hemp, if_pos hemp, lookupKV_eraseKV, if_pos rfl]
        · rw [if_neg hemp, if_neg hemp, lookupKV_insertKV, if_pos rfl]
      · have hne : t2 ≠ t := fun e => htnr (e ▸ hm)
        obtain ⟨set2, hset2, hin2, hout2⟩ := ihin t2 hm
        refine ⟨set2, ?_, hin2, hout2⟩
        rw [← hset2]
        by_cases hemp : set.erase cid = []
        · rw [if_pos hemp, lookupKV_eraseKV, if_neg hne]
        · rw [if_neg hemp, lookupKV_insertKV, if_neg hne]

theorem topicsOK_consistent (s : ServerState) (h : TopicsOK s) :
    TopicIndexConsistent s := by
  obtain ⟨hndc, hndt, htop, hcli⟩ := h
  constructor
  · intro t cid c hc
    constructor
    · rintro ⟨set, hset, hmem⟩
      obtain ⟨hne, hnd2, hmems⟩ := htop (t, set) (lookupKV_mem t set s.topics hset)
      obtain ⟨c2, hc2, ht⟩ := hmems cid hmem
      rw [hc] at hc2
      injection hc2 with e
      rw [e]
      exact ht
    · intro ht
      obtain ⟨hnd2, hidx⟩ := hcli (cid, c) (lookupKV_mem cid c s.clients hc)
      exact hidx t ht
  · intro t set hset
    exact (htop (t, set) (lookupKV_mem t set s.topics hset)).1

theorem topicsOK_reinsert (s s2 : ServerState) (cid : ClientId) (c : Client)
    (h : TopicsOK s) (hc : lookupKV cid s.clients = some c)
    (hcl : s2.clients = insertKV cid c s.clients) (htp : s2.topics = s.topics) :
    TopicsOK s2 := by
  obtain ⟨hndc, hndt, htop, hcli⟩ := h
  have hcm : (cid, c) ∈ s.clients := lookupKV_mem cid c s.clients hc
  refine ⟨?_, ?_, ?_, ?_⟩
  · rw [hcl]
    exact nodup_keysKV_insertKV cid c s.clients hndc
  · rw [htp]
    exact hndt
  · intro pr hpr
    rw [htp] at hpr
    obtain ⟨hne, hnd2, hmems⟩ := htop pr hpr
    refine ⟨hne, hnd2, ?_⟩
    intro cid2 hcid2
    obtain ⟨c2, hc2, ht⟩ := hmems cid2 hcid2
    rw [hcl, lookupKV_insertKV]
    by_cases he : cid2 = cid
    · subst he
      rw [hc] at hc2
      injection hc2 with e
      subst e
      exact ⟨c, by rw [if_pos rfl], ht⟩
    · rw [if_neg he]
      exact ⟨c2, hc2, ht⟩
  · intro pr hpr
    rw [hcl, mem_insertKV] at hpr
    rcases hpr with he | ⟨hm, hne⟩
    · subst he
      obtain ⟨hnd2, hidx⟩ := hcli (cid, c) hcm
      refine ⟨hnd2, ?_⟩
      intro t ht
      rw [htp]
      exact hidx t ht
    · obtain ⟨hnd2, hidx⟩ := hcli pr hm
      refine ⟨hnd2, ?_⟩
      intro t ht
      rw [htp]
      exact hidx t ht

theorem topicsOK_sub_newtopic (s s2 : ServerState) (cid : ClientId) (c : Client)
    (topic : PyStr) (h : TopicsOK s) (hc : lookupKV cid s.clients = some c)
    (hmem : topic ∉ c.topics) (hts : lookupKV topic s.topics = none)
    (hcl : s2.clients = insertKV cid { c with topics := c.topics ++ [topic] } s.clients)
    (htp : s2.topics = insertKV topic [cid] s.topics) :
    TopicsOK s2 := by
  obtain ⟨hndc, hndt, htop, hcli⟩ := h
  have hcm : (cid, c) ∈ s.clients := lookupKV_mem cid c s.clients hc
  refine ⟨?_, ?_, ?_, ?_⟩
  · rw [hcl]
    exact nodup_keysKV_insertKV cid _ s.clients hndc
  · rw [htp]
    exact nodup_keysKV_insertKV topic _ s.topics hndt
  · intro pr hpr
    rw [htp, mem_insertKV] at hpr
    rcases hpr with he | ⟨hm, hne⟩
    · subst he
      refine ⟨by simp, by simp, ?_⟩
      intro cid2 hcid2
      simp only [List.mem_singleton] at hcid2
      subst hcid2
      refine ⟨{ c with topics := c.topics ++ [topic] }, ?_, by simp⟩
      rw [hcl, lookupKV_insertKV, if_pos rfl]
    · obtain ⟨hne2, hnd2, hmems⟩ := htop pr hm
      refine ⟨hne2, hnd2, ?_⟩
      intro cid2 hcid2
      obtain ⟨c2, hc2, ht⟩ := hmems cid2 hcid2
      rw [hcl, lookupKV_insertKV]
      by_cases he : cid2 = cid
      · subst he
        rw [hc] at hc2
        injection hc2 with e
        subst e
        refine ⟨_, by rw [if_pos rfl], ?_⟩
        simp [ht]
      · rw [if_neg he]
        exact ⟨c2, hc2, ht⟩
  · intro pr hpr
    rw [hcl, mem_insertKV] at hpr
    rcases hpr with he | ⟨hm, hne⟩
    · subst he
      obtain ⟨hnd2, hidx⟩ := hcli (cid, c) hcm
      refine ⟨by simp [List.nodup_append, hnd2, hmem], ?_⟩
      intro t ht
      simp only [List.mem_append, List.mem_singleton] at ht
      rcases ht with ht | ht
      · obtain ⟨set, hset, hin⟩ := hidx t ht
        have htne : t ≠ topic := by
          intro e
          rw [e, hts] at hset
          exact absurd hset (by simp)
        rw [htp, lookupKV_insertKV, if_neg htne]
        exact ⟨set, hset, hin⟩
      · subst ht
        rw [htp, lookupKV_insertKV, if_pos rfl]
        exact ⟨[cid], rfl, by simp⟩
    · obtain ⟨hnd2, hidx⟩ := hcli pr hm
      refine ⟨hnd2, ?_⟩
      intro t ht
      obtain ⟨set, hset, hin⟩ := hidx t ht
      have htne : t ≠ topic := by
        intro e
        rw [e, hts] at hset
        exact absurd hset (by simp)
      rw [htp, lookupKV_insertKV, if_neg htne]
      exact ⟨set, hset, hin⟩

theorem topicsOK_sub_oldtopic (s s2 : ServerState) (cid : ClientId) (c : Client)
    (topic : PyStr) (set : List ClientId)
    (h : TopicsOK s) (hc : lookupKV cid s.clients = some c)
    (hmem : topic ∉ c.topics) (hts : lookupKV topic s.topics = some set)
    (hcl : s2.clients = insertKV cid { c with topics := c.topics ++ [topic] } s.clients)
    (htp : s2.topics = insertKV topic (if cid ∈ set then set else set ++ [cid]) s.topics) :
    TopicsOK s2 := by
  obtain ⟨hndc, hndt, htop, hcli⟩ := h
  have hcm : (cid, c) ∈ s.clients := lookupKV_mem cid c s.clients hc
  have htm : (topic, set) ∈ s.topics := lookupKV_mem topic set s.topics hts
  have hnotin : cid ∉ set := by
    intro hin
    obtain ⟨hne2, hnd2, hmems⟩ := htop (topic, set) htm
    obtain ⟨c2, hc2, ht⟩ := hmems cid hin
    rw [hc] at hc2
    injection hc2 with e
    subst e
    exact hmem ht
  rw [if_neg hnotin] at htp
  obtain ⟨hne0, hnd0, hmems0⟩ := htop (topic, set) htm
  refine ⟨?_, ?_, ?_, ?_⟩
  · rw [hcl]
    exact nodup_keysKV_insertKV cid _ s.clients hndc
  · rw [htp]
    exact nodup_keysKV_insertKV topic _ s.topics hndt
  · intro pr hpr
    rw [htp, mem_insertKV] at hpr
    rcases hpr with he | ⟨hm, hne⟩
    · subst he
      refine ⟨by simp, by simp [List.nodup_append, hnd0, hnotin], ?_⟩
      intro cid2 hcid2
      simp only [List.mem_append, List.mem_singleton] at hcid2
      rcases hcid2 with hcid2 | hcid2
      · obtain ⟨c2, hc2, ht⟩ := hmems0 cid2 hcid2
        rw [hcl, lookupKV_insertKV]
        by_cases he : cid2 = cid
        · subst he
          exact absurd hcid2 hnotin
        · rw [if_neg he]
          exact ⟨c2, hc2, ht⟩
      · subst hcid2
        refine ⟨{ c with topics := c.topics ++ [topic] }, ?_, by simp⟩
        rw [hcl, lookupKV_insertKV, if_pos rfl]
    · obtain ⟨hne2, hnd2, hmems⟩ := htop pr hm
      refine ⟨hne2, hnd2, ?_⟩
      intro cid2 hcid2
      obtain ⟨c2, hc2, ht⟩ := hmems cid2 hcid2
      rw [hcl, lookupKV_insertKV]
      by_cases he : cid2 = cid
      · subst he
        rw [hc] at hc2
        injection hc2 with e
        subst e
        refine ⟨_, by rw [if_pos rfl], ?_⟩
        simp [ht]
      · rw [if_neg he]
        exact ⟨c2, hc2, ht⟩
  · intro pr hpr
    rw [hcl, mem_insertKV] at hpr
    rcases hpr with he | ⟨hm, hne⟩
    · subst he
      obtain ⟨hnd2, hidx⟩ := hcli (cid, c) hcm
      refine ⟨by simp [List.nodup_append, hnd2, hmem], ?_⟩
      intro t ht
      simp only [List.mem_append, List.mem_singleton] at ht
      rcases ht with ht | ht
      · obtain ⟨set2, hset2, hin⟩ := hidx t ht
        by_cases htne : t = topic
        · subst htne
          rw [htp, lookupKV_insertKV, if_pos rfl]
          rw [hts] at hset2
          injection hset2 with e
          subst e
          exact ⟨set ++ [cid], rfl, by simp [hin]⟩
        · rw [htp, lookupKV_insertKV, if_neg htne]
          exact ⟨set2, hset2, hin⟩
      · subst ht
        rw [htp, lookupKV_insertKV, if_pos rfl]
        exact ⟨set ++ [cid], rfl, by simp⟩
    · obtain ⟨hnd2, hidx⟩ := hcli pr hm
      refine ⟨hnd2, ?_⟩
      intro t ht
      obtain ⟨set2, hset2, hin⟩ := hidx t ht
      by_cases htne : t = topic
      · subst htne
        rw [htp, lookupKV_insertKV, if_pos rfl]
        rw [hts] at hset2
        injection hset2 with e
        subst e
        exact ⟨set ++ [cid], rfl, by simp [hin]⟩
      · rw [htp, lookupKV_insertKV, if_neg htne]
        exact ⟨set2, hset2, hin⟩

theorem topicsOK_unsub_empty (s s2 : ServerState) (cid : ClientId) (c : Client)
    (topic : PyStr) (set : List ClientId)
    (h : TopicsOK s) (hc : lookupKV cid s.clients = some c)
    (hmem : topic ∈ c.topics) (hts : lookupKV topic s.topics = some set)
    (hin : cid ∈ set) (hemp : set.erase cid = [])
    (hcl : s2.clients = insertKV cid { c with topics := c.topics.erase topic } s.clients)
    (htp : s2.topics = eraseKV topic s.topics) :
    TopicsOK s2 := by
  obtain ⟨hndc, hndt, htop, hcli⟩ := h
  have hcm : (cid, c) ∈ s.clients := lookupKV_mem cid c s.clients hc
  have hndtop : c.topics.Nodup := (hcli (cid, c) hcm).1
  refine ⟨?_, ?_, ?_, ?_⟩
  · rw [hcl]
    exact nodup_keysKV_insertKV cid _ s.clients hndc
  · rw [htp]
    exact nodup_keysKV_eraseKV topic s.topics hndt
  · intro pr hpr
    rw [htp, mem_eraseKV] at hpr
    obtain ⟨hm, hne⟩ := hpr
    obtain ⟨hne2, hnd2, hmems⟩ := htop pr hm
    refine ⟨hne2, hnd2, ?_⟩
    intro cid2 hcid2
    obtain ⟨c2, hc2, ht⟩ := hmems cid2 hcid2
    rw [hcl, lookupKV_insertKV]
    by_cases he : cid2 = cid
    · subst he
      rw [hc] at hc2
      injection hc2 with e
      subst e
      refine ⟨_, by rw [if_pos rfl], ?_⟩
      show pr.1 ∈ c.topics.erase topic
      rw [hndtop.mem_erase_iff]
      exact ⟨hne, ht⟩
    · rw [if_neg he]
      exact ⟨c2, hc2, ht⟩
  · intro pr hpr
    rw [hcl, mem_insertKV] at hpr
    rcases hpr with he | ⟨hm, hne⟩
    · subst he
      refine ⟨hndtop.erase topic, ?_⟩
      intro t ht
      rw [hndtop.mem_erase_iff] at ht
      obtain ⟨htne, htin⟩ := ht
      obtain ⟨set2, hset2, hin2⟩ := (hcli (cid, c) hcm).2 t htin
      rw [htp, lookupKV_eraseKV, if_neg htne]
      exact ⟨set2, hset2, hin2⟩
    · obtain ⟨hnd2, hidx⟩ := hcli pr hm
      refine ⟨hnd2, ?_⟩
      intro t ht
      obtain ⟨set2, hset2, hin2⟩ := hidx t ht
      have htne : t ≠ topic := by
        intro e
        subst e
        rw [hts] at hset2
        injection hset2 with e2
        subst e2
        have hprm : pr.1 ∈ set.erase cid := by
          rw [(htop (t, set) (lookupKV_mem t set s.topics hts)).2.1.mem_erase_iff]
          exact ⟨hne, hin2⟩
        rw [hemp] at hprm
        simp at hprm
      rw [htp, lookupKV_eraseKV, if_neg htne]
      exact ⟨set2, hset2, hin2⟩

theorem topicsOK_unsub_nonempty (s s2 : ServerState) (cid : ClientId) (c : Client)
    (topic : PyStr) (set : List ClientId)
    (h : TopicsOK s) (hc : lookupKV cid s.clients = some c)
    (hmem : topic ∈ c.topics) (hts : lookupKV topic s.topics = some set)
    (hin : cid ∈ set) (hemp : set.erase cid ≠ [])
    (hcl : s2.clients = insertKV cid { c with topics := c.topics.erase topic } s.clients)
    (htp : s2.topics = insertKV topic (set.erase cid) s.topics) :
    TopicsOK s2 := by
  obtain ⟨hndc, hndt, htop, hcli⟩ := h
  have hcm : (cid, c) ∈ s.clients := lookupKV_mem cid c s.clients hc
  have htm : (topic, set) ∈ s.topics := lookupKV_mem topic set s.topics hts
  have hndtop : c.topics.Nodup := (hcli (cid, c) hcm).1
  have hndset : set.Nodup := (htop (topic, set) htm).2.1
  refine ⟨?_, ?_, ?_, ?_⟩
  · rw [hcl]
    exact nodup_keysKV_insertKV cid _ s.clients hndc
  · rw [htp]
    exact nodup_keysKV_insertKV topic _ s.topics hndt
  · intro pr hpr
    rw [htp, mem_insertKV] at hpr
    rcases hpr with he | ⟨hm, hne⟩
    · subst he
      refine ⟨hemp, hndset.erase cid, ?_⟩
      intro cid2 hcid2
      rw [hndset.mem_erase_iff] at hcid2
      obtain ⟨hcne, hcin⟩ := hcid2
      obtain ⟨c2, hc2, ht⟩ := (htop (topic, set) htm).2.2 cid2 hcin
      rw [hcl, lookupKV_insertKV, if_neg hcne]
      exact ⟨c2, hc2, ht⟩
    · obtain ⟨hne2, hnd2, hmems⟩ := htop pr hm
      refine ⟨hne2, hnd2, ?_⟩
      intro cid2 hcid2
      obtain ⟨c2, hc2, ht⟩ := hmems cid2 hcid2
      rw [hcl, lookupKV_insertKV]
      by_cases he : cid2 = cid
      · subst he
        rw [hc] at hc2
        injection hc2 with e
        subst e
        refine ⟨_, by rw [if_pos rfl], ?_⟩
        show pr.1 ∈ c.topics.erase topic
        rw [hndtop.mem_erase_iff]
        exact ⟨hne, ht⟩
      · rw [if_neg he]
        exact ⟨c2, hc2, ht⟩
  · intro pr hpr
    rw [hcl, mem_insertKV] at hpr
    rcases hpr with he | ⟨hm, hne⟩
    · subst he
      refine ⟨hndtop.erase topic, ?_⟩
      intro t ht
      rw [hndtop.mem_erase_iff] at ht
      obtain ⟨htne, htin⟩ := ht
      obtain ⟨set2, hset2, hin2⟩ := (hcli (cid, c) hcm).2 t htin
      rw [htp, lookupKV_insertKV, if_neg htne]
      exact ⟨set2, hset2, hin2⟩
    · obtain ⟨hnd2, hidx⟩ := hcli pr hm
      refine ⟨hnd2, ?_⟩
      intro t ht
      obtain ⟨set2, hset2, hin2⟩ := hidx t ht
      by_cases htne : t = topic
      · subst htne
        rw [hts] at hset2
        injection hset2 with e2
        subst e2
        rw [htp, lookupKV_insertKV, if_pos rfl]
        refine ⟨set.erase cid, rfl, ?_⟩
        rw [hndset.mem_erase_iff]
        exact ⟨hne, hin2⟩
      · rw [htp, lookupKV_insertKV, if_neg htne]
        exact ⟨set2, hset2, hin2⟩

theorem topicsOK_clientRemove (s s2 : ServerState) (cid : ClientId)
    (h : TopicsOK s) (hcall : clientRemove s cid = some s2) : TopicsOK s2 := by
  obtain ⟨c, tps, hc, hrt, htp, hcl, hlr, hcase⟩ := clientRemove_spec s cid s2 hcall
  obtain ⟨hndc, hndt, htop, hcli⟩ := h
  have hcm : (cid, c) ∈ s.clients := lookupKV_mem cid c s.clients hc
  have hndtop : c.topics.Nodup := (hcli (cid, c) hcm).1
  obtain ⟨hrtnd, hrtout, hrtin⟩ := removeFromTopics_spec cid c.topics s.topics tps hndtop hrt
  have hnd2t : (keysKV s2.topics).Nodup := by
    rw [htp]
    exact hrtnd hndt
  refine ⟨?_, hnd2t, ?_, ?_⟩
  · rw [hcl]
    exact nodup_keysKV_eraseKV cid s.clients hndc
  · intro pr hpr
    have hlk : lookupKV pr.1 s2.topics = some pr.2 := by
      apply lookupKV_of_mem_nodup pr.1 pr.2 s2.topics hnd2t
      exact hpr
    by_cases hmem : pr.1 ∈ c.topics
    · obtain ⟨set, hset, hcin, hout⟩ := hrtin pr.1 hmem
      rw [htp, hout] at hlk
      by_cases hemp : set.erase cid = []
      · rw [if_pos hemp] at hlk
        exact absurd hlk (by simp)
      · rw [if_neg hemp] at hlk
        injection hlk with e
        obtain ⟨hne0, hnd0, hmems0⟩ := htop (pr.1, set) (lookupKV_mem pr.1 set s.topics hset)
        refine ⟨by rw [← e]; exact hemp, by rw [← e]; exact hnd0.erase cid, ?_⟩
        intro cid2 hcid2
        rw [← e, hnd0.mem_erase_iff] at hcid2
        obtain ⟨hcne, hcin2⟩ := hcid2
        obtain ⟨c2, hc2, ht2⟩ := hmems0 cid2 hcin2
        rw [hcl, lookupKV_eraseKV, if_neg hcne]
        exact ⟨c2, hc2, ht2⟩
    · rw [htp, hrtout pr.1 hmem] at hlk
      obtain ⟨hne0, hnd0, hmems0⟩ := htop (pr.1, pr.2) (lookupKV_mem pr.1 pr.2 s.topics hlk)
      refine ⟨hne0, hnd0, ?_⟩
      intro cid2 hcid2
      obtain ⟨c2, hc2, ht2⟩ := hmems0 cid2 hcid2
      have hcne : cid2 ≠ cid := by
        intro he
        subst he
        rw [hc] at hc2
        injection hc2 with e2
        subst e2
        exact hmem ht2
      rw [hcl, lookupKV_eraseKV, if_neg hcne]
      exact ⟨c2, hc2, ht2⟩
  · intro pr hpr
    rw [hcl, mem_eraseKV] at hpr
    obtain ⟨hm, hne⟩ := hpr
    obtain ⟨hnd0, hidx⟩ := hcli pr hm
    refine ⟨hnd0, ?_⟩
    intro t ht
    obtain ⟨set, hset, hin⟩ := hidx t ht
    by_cases hmem : t ∈ c.topics
    · obtain ⟨set2, hset2, hcin, hout⟩ := hrtin t hmem
      rw [hset] at hset2
      injection hset2 with e2
      subst e2
      have hprm : pr.1 ∈ set.erase cid := by
        rw [List.mem_erase_of_ne hne]
        exact hin
      have hemp : set.erase cid ≠ [] := List.ne_nil_of_mem hprm
      rw [htp, hout, if_neg hemp]
      exact ⟨set.erase cid, rfl, hprm⟩
    · rw [htp, hrtout t hmem]
      exact ⟨set, hset, hin⟩

/-- Claim C3: for every topic `t` and live client `c`, `c` is in the topic
index entry for `t` iff `t` is in `c`'s subscription set, and no topic key
maps to an empty set; `SUBSCRIBE` (`Server.__process_subscribe`),
`UNSUBSCRIBE` (`Server.__process_unsubscribe`) and permanent removal
(`Server.__client_remove`) preserve this (together with the structural
invariant `TopicsOK` from which it follows). -/
theorem topic_index_consistency (s : ServerState) (h : TopicsOK s) :
    TopicIndexConsistent s ∧
    (∀ fn topic s2, processSubscribe s fn topic = some s2 →
      TopicsOK s2 ∧ TopicIndexConsistent s2) ∧
    (∀ fn topic s2, processUnsubscribe s fn topic = some s2 →
      TopicsOK s2 ∧ TopicIndexConsistent s2) ∧
    (∀ cid s2, clientRemove s cid = some s2 →
      TopicsOK s2 ∧ TopicIndexConsistent s2) := by
  refine ⟨topicsOK_consistent s h, ?_, ?_, ?_⟩
  · intro fn topic s2 hcall
    obtain ⟨hne, cid, c, hcid, hc, hcase⟩ := processSubscribe_spec s fn topic s2 hcall
    have hok : TopicsOK s2 := by
      rcases hcase with ⟨hmem, hs2⟩ | ⟨hmem, ⟨hts, hs2⟩ | ⟨set, hts, hs2⟩⟩
      · subst hs2
        exact topicsOK_reinsert s _ cid c h hc rfl rfl
      · subst hs2
        exact topicsOK_sub_newtopic s _ cid c topic h hc hmem hts rfl rfl
      · subst hs2
        exact topicsOK_sub_oldtopic s _ cid c topic set h hc hmem hts rfl rfl
    exact ⟨hok, topicsOK_consistent s2 hok⟩
  · intro fn topic s2 hcall
    obtain ⟨hne, cid, c, hcid, hc, hcase⟩ := processUnsubscribe_spec s fn topic s2 hcall
    have hok : TopicsOK s2 := by
      rcases hcase with ⟨hmem, hs2⟩ |
        ⟨hmem, set, hts, hin, ⟨hemp, hs2⟩ | ⟨hemp, hs2⟩⟩
      · subst hs2
        exact topicsOK_reinsert s _ cid c h hc rfl rfl
      · subst hs2
        exact topicsOK_unsub_empty s _ cid c topic set h hc hmem hts hin hemp rfl rfl
      · subst hs2
        exact topicsOK_unsub_nonempty s _ cid c topic set h hc hmem hts hin hemp rfl rfl
    exact ⟨hok, topicsOK_consistent s2 hok⟩
  · intro cid s2 hcall
    have hok : TopicsOK s2 := topicsOK_clientRemove s s2 cid h hcall
    exact ⟨hok, topicsOK_consistent s2 hok⟩

theorem topic_index_consistency_witness :
    TopicIndexConsistent c3state ∧
    (∀ fn topic s2, processSubscribe c3state fn topic = some s2 →
      TopicsOK s2 ∧ TopicIndexConsistent s2) ∧
    (∀ fn topic s2, processUnsubscribe c3state fn topic = some s2 →
      TopicsOK s2 ∧ TopicIndexConsistent s2) ∧
    (∀ cid s2, clientRemove c3state cid = some s2 →
      TopicsOK s2 ∧ TopicIndexConsistent s2) :=
  topic_index_consistency c3state (by
    refine ⟨by decide, by decide, ?_, ?_⟩ <;> simp [c3state, lookupKV])

/-! ### Claims C5 and C6: enqueue overflow and sweep cadence -/

/-- Counterexample to claim C5 as stated: with a stream of 10239 bytes and a
1-byte message, the total 10240 does not exceed `MAX_STREAM_SIZE`, so the
claim requires the append to happen; `Client.add_message` drops the write
(its guard is `<`, not `≤`) and returns the unchanged length 10239. -/
theorem add_message_cex :
    c5full.add_message [7] = (c5full, 10239) ∧
    c5full.message_stream.length + [7].length = MAX_STREAM_SIZE ∧
    ¬ (c5full.message_stream.length + [7].length > MAX_STREAM_SIZE) := by
  have hlen : c5full.message_stream.length = 10239 := by
    simp only [c5full, List.length_replicate]
  refine ⟨?_, ?_, ?_⟩
  · rw [Client.add_message, if_neg]
    · rw [hlen]
    · rw [hlen]
      simp only [List.length_cons, List.length_nil, MAX_STREAM_SIZE, BUFFER_SIZE]
      omega
  · rw [hlen]
    simp only [List.length_cons, List.length_nil, MAX_STREAM_SIZE, BUFFER_SIZE]
  · rw [hlen]
    simp only [List.length_cons, List.length_nil, MAX_STREAM_SIZE, BUFFER_SIZE]
    omega

/-- Claim C5, amended: `Client.add_message` appends and returns the new
length when the stream length plus the message length is strictly below
`MAX_STREAM_SIZE`, and otherwise (when the total would reach or exceed
`MAX_STREAM_SIZE`) leaves the stream unchanged and returns the old
length. -/
theorem add_message_amended (c : Client) (b : List Byte) :
    (c.message_stream.length + b.length ≥ MAX_STREAM_SIZE →
      c.add_message b = (c, c.message_stream.length)) ∧
    (c.message_stream.length + b.length < MAX_STREAM_SIZE →
      c.add_message b = ({ c with message_stream := c.message_stream ++ b },
        c.message_stream.length + b.length)) := by
  constructor
  · intro hge
    rw [Client.add_message, if_neg (by omega)]
  · intro hlt
    rw [Client.add_message, if_pos hlt]
    rw [List.length_append]

theorem add_message_amended_witness :
    (c5full.add_message [7] = (c5full, c5full.message_stream.length)) ∧
    (c5empty.add_message [7] =
      ({ c5empty with message_stream := c5empty.message_stream ++ [7] },
        c5empty.message_stream.length + [7].length)) :=
  ⟨(add_message_amended c5full [7]).1 (by
      simp only [c5full, List.length_replicate, List.length_cons, List.length_nil,
        MAX_STREAM_SIZE, BUFFER_SIZE]
      decide),
    (add_message_amended c5empty [7]).2 (by decide)⟩

/-- Claim C6 (code bug): the sweep guard of `server_loop` line 597 tests the
float `last_refresh - now` for truthiness instead of comparing elapsed
time to one second; with one lost client and only half a second elapsed
the guard fires, although the claim (and the comment above the line)
says the sweep runs only after at least one second. -/
theorem sweep_guard_every_tick :
    sweepGuard c2state (1/2) = true ∧ ¬ ((1/2 : ℚ) - c2state.last_refresh ≥ 1) := by
  constructor
  · rw [sweepGuard]
    rw [show c2state.temp_lost = [("bob".data, 2)] from rfl]
    rw [show c2state.last_refresh = 0 from rfl]
    norm_num
  · rw [show c2state.last_refresh = 0 from rfl]
    norm_num

/-! ### Claim C9: CLI port validation -/

/-- Counterexample to claim C9 as stated: an unparseable port argument makes
the process print the `WRONG_PORT` diagnostic and call `exit()`, which
exits with status code 0 — not with a non-zero code as the claim
requires. -/
theorem cli_port_cex :
    serverMain ["server.py".data, "abc".data] = MainResult.earlyExit 0 true := by
  decide

/-- Claim C9, amended: a missing, non-integer or out-of-range
(`not 1024 < port < 32000`) port argument makes the process print a
diagnostic and exit with status code 0 without starting the loop;
otherwise the server loop starts on that port. -/
theorem cli_port_amended (argv : List PyStr) :
    (argv.get? 1 = none → serverMain argv = MainResult.earlyExit 0 true) ∧
    (∀ a, argv.get? 1 = some a →
      (pythonInt a = none → serverMain argv = MainResult.earlyExit 0 true) ∧
      (∀ p, pythonInt a = some p →
        ((1024 < p ∧ p < 32000) → serverMain argv = MainResult.startLoop p) ∧
        (¬ (1024 < p ∧ p < 32000) →
          serverMain argv = MainResult.earlyExit 0 true))) := by
  constructor
  · intro hnone
    simp only [serverMain, hnone]
  · intro a ha
    constructor
    · intro hnone
      simp only [serverMain, ha, hnone]
    · intro p hp
      constructor
      · intro hrange
        simp only [serverMain, ha, hp]
        rw [if_pos hrange]
      · intro hrange
        simp only [serverMain, ha, hp]
        rw [if_neg hrange]

theorem cli_port_amended_witness :
    serverMain ["server.py".data, "5000".data] = MainResult.startLoop 5000 ∧
    serverMain ["server.py".data] = MainResult.earlyExit 0 true :=
  ⟨(((cli_port_amended ["server.py".data, "5000".data]).2 "5000".data
      (by decide)).2 5000 (by decide)).1 (by decide),
    (cli_port_amended ["server.py".data]).1 (by decide)⟩

/-! ### Claim C8: client-name constraints -/

theorem add_message_preserves (c : Client) (m : List Byte) :
    (c.add_message m).1.name = c.name ∧ (c.add_message m).1.fileno = c.fileno ∧
    (c.add_message m).1.connected = c.connected ∧
    (c.add_message m).1.topics = c.topics ∧
    (c.add_message m).1.lost_time = c.lost_time := by
  rw [Client.add_message]
  split <;> exact ⟨rfl, rfl, rfl, rfl, rfl⟩

theorem get_message_chunk_preserves (c : Client) (n : Nat) :
    (c.get_message_chunk n).1.name = c.name ∧
    (c.get_message_chunk n).1.fileno = c.fileno ∧
    (c.get_message_chunk n).1.connected = c.connected ∧
    (c.get_message_chunk n).1.topics = c.topics ∧
    (c.get_message_chunk n).1.lost_time = c.lost_time :=
  ⟨rfl, rfl, rfl, rfl, rfl⟩

theorem namesNonempty_insert_client (s s2 : ServerState) (cid : ClientId)
    (c c2 : Client) (h : NamesNonempty s)
    (hc : lookupKV cid s.clients = some c) (hname : c2.name = c.name)
    (h1 : s2.connected_names = s.connected_names) (h2 : s2.temp_lost = s.temp_lost)
    (h3 : s2.clients = insertKV cid c2 s.clients) : NamesNonempty s2 := by
  obtain ⟨ha, hb, hcl⟩ := h
  refine ⟨?_, ?_, ?_⟩
  · rw [h1]
    exact ha
  · rw [h2]
    exact hb
  · intro pr hpr
    rw [h3, mem_insertKV] at hpr
    rcases hpr with he | ⟨hm, hne⟩
    · subst he
      show c2.name ≠ []
      rw [hname]
      exact hcl (cid, c) (lookupKV_mem cid c s.clients hc)
    · exact hcl pr hm

theorem namesNonempty_publishFold (m : List Byte) (subs : List ClientId) :
    ∀ s s2 : ServerState, NamesNonempty s → publishFold m s subs = some s2 →
      NamesNonempty s2 := by
  induction subs with
  | nil =>
    intro s s2 h hcall
    simp only [publishFold, Option.some.injEq] at hcall
    subst hcall
    exact h
  | cons cid rest ih =>
    intro s s2 h hcall
    simp only [publishFold, Option.bind_eq_bind, Option.bind_eq_some] at hcall
    obtain ⟨s3, h3, hrest⟩ := hcall
    obtain ⟨c, hc, hcl, hcon, hcn, htl, htp, hp, hco, hlr, hep⟩ := publishOne_spec m s cid s3 h3
    have h3ok : NamesNonempty s3 :=
      namesNonempty_insert_client s s3 cid c _ h hc (add_message_preserves c m).1 hcn htl hcl
    exact ih s3 s2 h3ok hrest

/-- Claim C8, amended: every name held by the broker (connected-name key,
lost-name key, or a heap client's `name` field) is nonempty, and every
processed command preserves this; in particular a `CONNECT` with an empty
name never creates or restores a client (a pending connection sending one
is simply removed by `__process_command`).  The 64-character bound of the
original claim is not enforced by the server (see the counterexample). -/
theorem client_name_amended (s : ServerState) (h : NamesNonempty s) :
    NamesNonempty s ∧
    (∀ fn command arg1 data s2 out,
      processCommand s fn command arg1 data = some (s2, out) → NamesNonempty s2) := by
  refine ⟨h, ?_⟩
  intro fn command arg1 data s2 out hcall
  rw [processCommand] at hcall
  by_cases hpend : fn ∈ s.pending
  · rw [if_pos hpend] at hcall
    by_cases hconn : command = "CONNECT".data ∧ arg1 ≠ []
    · rw [if_pos hconn] at hcall
      obtain ⟨hne, hcase⟩ := processConnect_spec s fn arg1 s2 out hcall
      rcases hcase with ⟨hmem, hco, hcr, hout⟩ | ⟨hno, hmem, hcr⟩ | ⟨hno1, hno2, hca⟩
      · obtain ⟨hep, hco2, hs2⟩ := connectionRemove_spec _ _ _ hcr
        subst hs2
        exact h
      · obtain ⟨cid, c, hcid, hc, hco, hpend2, hout, hp, htl, hcon, hcn, hcl, htp, hco2,
          hlr, hepoll⟩ := clientRestore_spec _ _ _ _ _ hcr
        obtain ⟨ha, hb, hclh⟩ := h
        refine ⟨?_, ?_, ?_⟩
        · rw [hcn]
          intro n hn
          rw [mem_keysKV_insertKV] at hn
          rcases hn with he | hm
          · rw [he]
            exact hne
          · exact ha n hm
        · rw [htl]
          intro n hn
          rw [mem_keysKV_eraseKV] at hn
          exact hb n hn.1
        · intro pr hpr
          rw [hcl, mem_insertKV] at hpr
          rcases hpr with he | ⟨hm, hne2⟩
          · subst he
            exact hclh (cid, c) (lookupKV_mem cid c s.clients hc)
          · exact hclh pr hm
      · obtain ⟨hco, hpend2, hout, hcon, hcn, hcl, hp, htl, htp, hco2, hep, hlr⟩ :=
          clientAdd_spec _ _ _ _ _ hca
        obtain ⟨ha, hb, hclh⟩ := h
        refine ⟨?_, ?_, ?_⟩
        · rw [hcn]
          intro n hn
          rw [mem_keysKV_insertKV] at hn
          rcases hn with he | hm
          · rw [he]
            exact hne
          · exact ha n hm
        · rw [htl]
          exact hb
        · intro pr hpr
          rw [hcl, mem_insertKV] at hpr
          rcases hpr with he | ⟨hm, hne2⟩
          · subst he
            exact hne
          · exact hclh pr hm
    · rw [if_neg hconn] at hcall
      simp only [Option.bind_eq_bind, Option.bind_eq_some, Option.some.injEq,
        Prod.mk.injEq] at hcall
      obtain ⟨s3, hcr, hs2, hout⟩ := hcall
      obtain ⟨hep, hco2, hs3⟩ := connectionRemove_spec _ _ _ hcr
      subst hs3
      subst hs2
      exact h
  · rw [if_neg hpend] at hcall
    by_cases hdis : command = "DISCONNECT".data
    · rw [if_pos hdis] at hcall
      simp only [Option.bind_eq_bind, Option.bind_eq_some, Option.some.injEq,
        Prod.mk.injEq] at hcall
      obtain ⟨s3, hpd, hs2, hout⟩ := hcall
      subst hs2
      simp only [processDisconect, Option.bind_eq_bind, Option.bind_eq_some] at hpd
      obtain ⟨cid, hcid, hcr⟩ := hpd
      obtain ⟨c, tps, hc, hrt, htp, hcl, hlr, hcase⟩ := clientRemove_spec _ _ _ hcr
      obtain ⟨ha, hb, hclh⟩ := h
      have hclients : ∀ pr ∈ s3.clients, pr.2.name ≠ [] := by
        intro pr hpr
        rw [hcl, mem_eraseKV] at hpr
        exact hclh pr hpr.1
      rcases hcase with ⟨hcc, hm1, hm2, hm3, hm4, hcon, hcn, htl, hep, hco, hp⟩ |
        ⟨hcc, hm1, hcon, hcn, htl, hep, hco, hp⟩
      · refine ⟨?_, ?_, hclients⟩
        · rw [hcn]
          intro n hn
          rw [mem_keysKV_eraseKV] at hn
          exact ha n hn.1
        · rw [htl]
          exact hb
      · refine ⟨?_, ?_, hclients⟩
        · rw [hcn]
          exact ha
        · rw [htl]
          intro n hn
          rw [mem_keysKV_eraseKV] at hn
          exact hb n hn.1
    · rw [if_neg hdis] at hcall
      by_cases hpub : command = "PUBLISH".data ∧ arg1 ≠ []
      · rw [if_pos hpub] at hcall
        simp only [Option.bind_eq_bind, Option.bind_eq_some, Option.some.injEq,
          Prod.mk.injEq] at hcall
        obtain ⟨s3, hpp, hs2, hout⟩ := hcall
        subst hs2
        simp only [processPublish, Option.bind_eq_bind, Option.bind_eq_some,
          ensure_eq_some] at hpp
        obtain ⟨u, hne, hpp⟩ := hpp
        rcases hts : lookupKV arg1 s.topics with _ | subs
        · rw [hts] at hpp
          simp only [Option.some.injEq] at hpp
          subst hpp
          exact h
        · rw [hts] at hpp
          exact namesNonempty_publishFold _ subs s s3 h hpp
      · rw [if_neg hpub] at hcall
        by_cases hsub : command = "SUBSCRIBE".data ∧ arg1 ≠ []
        · rw [if_pos hsub] at hcall
          simp only [Option.bind_eq_bind, Option.bind_eq_some, Option.some.injEq,
            Prod.mk.injEq] at hcall
          obtain ⟨s3, hps, hs2, hout⟩ := hcall
          subst hs2
          obtain ⟨hne, cid, c, hcid, hc, hcase⟩ := processSubscribe_spec s fn arg1 s3 hps
          rcases hcase with ⟨hmem, hs3⟩ | ⟨hmem, ⟨hts, hs3⟩ | ⟨set, hts, hs3⟩⟩
          · subst hs3
            exact namesNonempty_insert_client s _ cid c c h hc rfl rfl rfl rfl
          · subst hs3
            exact namesNonempty_insert_client s _ cid c
              { c with topics := c.topics ++ [arg1] } h hc rfl rfl rfl rfl
          · subst hs3
            exact namesNonempty_insert_client s _ cid c
              { c with topics := c.topics ++ [arg1] } h hc rfl rfl rfl rfl
        · rw [if_neg hsub] at hcall
          by_cases huns : command = "UNSUBSCRIBE".data ∧ arg1 ≠ []
          · rw [if_pos huns] at hcall
            simp only [Option.bind_eq_bind, Option.bind_eq_some, Option.some.injEq,
              Prod.mk.injEq] at hcall
            obtain ⟨s3, hpu, hs2, hout⟩ := hcall
            subst hs2
            obtain ⟨hne, cid, c, hcid, hc, hcase⟩ := processUnsubscribe_spec s fn arg1 s3 hpu
            rcases hcase with ⟨hmem, hs3⟩ |
              ⟨hmem, set, hts, hin, ⟨hemp, hs3⟩ | ⟨hemp, hs3⟩⟩
            · subst hs3
              exact namesNonempty_insert_client s _ cid c c h hc rfl rfl rfl rfl
            · subst hs3
              exact namesNonempty_insert_client s _ cid c
                { c with topics := c.topics.erase arg1 } h hc rfl rfl rfl rfl
            · subst hs3
              exact namesNonempty_insert_client s _ cid c
                { c with topics := c.topics.erase arg1 } h hc rfl rfl rfl rfl
          · rw [if_neg huns] at hcall
            simp only [Option.some.injEq, Prod.mk.injEq] at hcall
            obtain ⟨hs2, hout⟩ := hcall
            subst hs2
            exact h

/-- Counterexample to claim C8 as stated: the server never checks the
64-character bound (only the client does, via `MAX_NAME_LEN` in
client.py), so a `CONNECT` with a 65-character name creates a client
under that name. -/
theorem client_name_cex :
    (processConnect c8state 3 (List.replicate 65 'a')).map
        (fun pr => decide (List.replicate 65 'a' ∈ keysKV pr.1.connected_names)) =
      some true ∧
    (List.replicate 65 'a').length = 65 := by
  constructor
  · decide
  · decide

theorem client_name_amended_witness :
    NamesNonempty c8state ∧
    (∀ fn command arg1 data s2 out,
      processCommand c8state fn command arg1 data = some (s2, out) →
        NamesNonempty s2) :=
  client_name_amended c8state (by simp only [NamesNonempty]; decide)

/-! ### Claim C4: publish fan-out and writability arming -/

theorem strBytes_length_ascii (l : PyStr) (h : ∀ c ∈ l, c.toNat < 128) :
    (strBytes l).length = l.length := by
  induction l with
  | nil => rfl
  | cons c rest ih =>
    have hc : c.toNat < 128 := h c (List.mem_cons_self c rest)
    have hrest : ∀ x ∈ rest, x.toNat < 128 := fun x hx => h x (List.mem_cons_of_mem c hx)
    simp only [strBytes, List.map_cons, List.flatten_cons, List.length_append,
      List.length_cons]
    rw [utf8Char, if_pos hc]
    have ihr : (strBytes rest).length = rest.length := ih hrest
    simp only [strBytes] at ihr
    rw [ihr]
    simp only [List.length_cons, List.length_nil]
    omega

theorem c4msg_length :
    (strBytes ("t".data ++ ' ' :: List.replicate 5115 'a') ++ EOM).length = 5120 := by
  rw [List.length_append]
  have hascii : ∀ c ∈ ("t".data ++ ' ' :: List.replicate 5115 'a'), c.toNat < 128 := by
    intro c hcmem
    rw [List.mem_append] at hcmem
    rcases hcmem with hx | hx
    · have hct : c = 't' := by simpa using hx
      rw [hct]
      decide
    · rw [List.mem_cons] at hx
      rcases hx with rfl | hx
      · decide
      · rw [List.eq_of_mem_replicate hx]
        decide
  rw [strBytes_length_ascii _ hascii]
  simp only [List.length_append, List.length_cons, List.length_replicate]
  rfl

theorem c4_add_message :
    c4sub.add_message (strBytes ("t".data ++ ' ' :: List.replicate 5115 'a') ++ EOM) =
      (c4sub, 5120) := by
  have hstream : c4sub.message_stream.length = 5120 := by
    show (List.replicate 5120 (0 : Byte)).length = 5120
    rw [List.length_replicate]
  rw [Client.add_message, if_neg]
  · rw [hstream]
  · rw [hstream, c4msg_length]
    decide

theorem c4_pub_step (M : List Byte) (hM : c4sub.add_message M = (c4sub, 5120))
    (hlen : M.length = 5120) :
    publishFold M c4state [1] =
      some { c4state with clients := [(1, c4sub)], epoll := [(7, true)] } := by
  have hc : lookupKV 1 c4state.clients = some c4sub := rfl
  simp only [publishFold, publishOne, Option.bind_eq_bind, hc, Option.some_bind, hM]
  rw [if_pos (show (5120 : Nat) = M.length from hlen.symm)]
  rw [if_pos (show c4sub.fileno ∈ keysKV c4state.connected by decide)]
  have hens : ensure (c4sub.fileno ∈ keysKV
      ({ c4state with clients := insertKV 1 c4sub c4state.clients } : ServerState).epoll) =
      some () := by decide
  simp only [Option.bind_eq_bind, hens, Option.some_bind]
  rfl

/-- Counterexample to claim C4 as stated: publishing a 5115-byte payload on
topic `t` to a subscriber whose outbound buffer already holds exactly 5120
bytes makes `Client.add_message` drop the framed 5120-byte message (the
buffer would reach `MAX_STREAM_SIZE`), so nothing is enqueued — yet the
returned old length 5120 coincides with the message length, so line 438
arms `EPOLLOUT` anyway, although the buffer was non-empty before the
publish and is unchanged by it. -/
theorem publish_fanout_cex :
    processPublish c4state "t".data (List.replicate 5115 'a') =
      some { c4state with clients := [(1, c4sub)], epoll := [(7, true)] } ∧
    c4sub.message_stream ≠ [] ∧
    (strBytes ("t".data ++ ' ' :: List.replicate 5115 'a') ++ EOM).length = 5120 := by
  refine ⟨?_, ?_, c4msg_length⟩
  · have he : ensure (("t".data : PyStr) ≠ []) = some () := by decide
    have hts : lookupKV ['t'] c4state.topics = some [1] := rfl
    simp only [processPublish, Option.bind_eq_bind, he, Option.some_bind]
    rw [hts]
    exact c4_pub_step _ c4_add_message c4msg_length
  · intro hnil
    have hlen := congrArg List.length hnil
    rw [show c4sub.message_stream = List.replicate 5120 0 from rfl,
      List.length_replicate] at hlen
    simp at hlen

theorem publishFold_spec (M : List Byte) : ∀ (subs : List ClientId) (s s2 : ServerState),
    publishFold M s subs = some s2 → subs.Nodup →
    (s2.connected = s.connected ∧ s2.topics = s.topics ∧ s2.temp_lost = s.temp_lost ∧
      s2.connected_names = s.connected_names ∧ s2.pending = s.pending ∧
      s2.connections = s.connections ∧ s2.last_refresh = s.last_refresh) ∧
    (∀ cid, cid ∉ subs → lookupKV cid s2.clients = lookupKV cid s.clients) ∧
    (∀ fn, lookupKV fn s2.epoll = lookupKV fn s.epoll ∨
      (lookupKV fn s2.epoll = some true ∧ ∃ cid ∈ subs, ∃ c,
        lookupKV cid s.clients = some c ∧ c.fileno = fn ∧
        (c.add_message M).2 = M.length ∧ c.fileno ∈ keysKV s.connected)) ∧
    (∀ cid ∈ subs, ∃ c, lookupKV cid s.clients = some c ∧
      lookupKV cid s2.clients = some (c.add_message M).1 ∧
      ((c.add_message M).2 = M.length → c.fileno ∈ keysKV s.connected →
        lookupKV c.fileno s2.epoll = some true)) := by
  intro subs
  induction subs with
  | nil =>
    intro s s2 h hnd
    simp only [publishFold, Option.some.injEq] at h
    subst h
    refine ⟨⟨rfl, rfl, rfl, rfl, rfl, rfl, rfl⟩, fun cid _ => rfl,
      fun fn => Or.inl rfl, ?_⟩
    intro cid hcid
    exact absurd hcid (List.not_mem_nil cid)
  | cons cid rest ih =>
    intro s s2 h hnd
    simp only [publishFold, Option.bind_eq_bind, Option.bind_eq_some] at h
    obtain ⟨s3, h3, hrest⟩ := h
    rw [List.nodup_cons] at hnd
    obtain ⟨hcidr, hndr⟩ := hnd
    obtain ⟨c, hc, hcl, hconn, hcn, htl, htp, hp, hco, hlr, hepoll⟩ :=
      publishOne_spec M s cid s3 h3
    obtain ⟨⟨ihconn, ihtp, ihtl, ihcn, ihp, ihco, ihlr⟩, ihout, ihep, ihmem⟩ :=
      ih s3 s2 hrest hndr
    have hfields : s2.connected = s.connected ∧ s2.topics = s.topics ∧
        s2.temp_lost = s.temp_lost ∧ s2.connected_names = s.connected_names ∧
        s2.pending = s.pending ∧ s2.connections = s.connections ∧
        s2.last_refresh = s.last_refresh :=
      ⟨ihconn.trans hconn, ihtp.trans htp, ihtl.trans htl, ihcn.trans hcn,
        ihp.trans hp, ihco.trans hco, ihlr.trans hlr⟩
    have houtside : ∀ cid2, cid2 ∉ cid :: rest →
        lookupKV cid2 s2.clients = lookupKV cid2 s.clients := by
      intro cid2 hcid2
      rw [List.mem_cons, not_or] at hcid2
      rw [ihout cid2 hcid2.2, hcl, lookupKV_insert_ne _ _ _ _ hcid2.1]
    have hfileno : (c.add_message M).1.fileno = c.fileno := (add_message_preserves c M).2.1
    have hstep_lookup : ∀ cid2 ∈ rest, lookupKV cid2 s3.clients = lookupKV cid2 s.clients := by
      intro cid2 hcid2
      have hne : cid2 ≠ cid := fun he => hcidr (he ▸ hcid2)
      rw [hcl, lookupKV_insert_ne _ _ _ _ hne]
    refine ⟨hfields, houtside, ?_, ?_⟩
    · intro fn
      rcases ihep fn with hun | ⟨htrue, cid2, hcid2, c2, hc2, hfn2, hlen2, hcn2⟩
      · rcases hepoll with ⟨hlen, hfnc, hfne, heq⟩ | ⟨hno, heq⟩
        · rw [hfileno] at heq
          by_cases hfn : fn = c.fileno
          · subst hfn
            refine Or.inr ⟨?_, cid, List.mem_cons_self cid rest, c, hc, rfl,
              hlen, hfileno ▸ hfnc⟩
            rw [hun, heq, lookupKV_insert_self]
          · refine Or.inl ?_
            rw [hun, heq, lookupKV_insert_ne _ _ _ _ hfn]
        · exact Or.inl (hun.trans (by rw [heq]))
      · refine Or.inr ⟨htrue, cid2, List.mem_cons_of_mem cid hcid2, c2, ?_, hfn2, hlen2, ?_⟩
        · rw [← hstep_lookup cid2 hcid2]
          exact hc2
        · rw [← hconn]
          exact hcn2
    · intro cid2 hcid2
      rw [List.mem_cons] at hcid2
      rcases hcid2 with he | hmem
      · subst he
        refine ⟨c, hc, ?_, ?_⟩
        · rw [ihout cid2 hcidr, hcl, lookupKV_insert_self]
        · intro hlen hfnc
          have harm : s3.epoll = insertKV c.fileno true s.epoll := by
            rcases hepoll with ⟨_, _, _, heq⟩ | ⟨hno, _⟩
            · rw [hfileno] at heq
              exact heq
            · exact absurd ⟨hlen, hfileno.symm ▸ hfnc⟩ hno
          have h3true : lookupKV c.fileno s3.epoll = some true := by
            rw [harm, lookupKV_insert_self]
          rcases ihep c.fileno with hun | ⟨htrue, _⟩
          · rw [hun, h3true]
          · exact htrue
      · obtain ⟨c2, hc2, hcl2, harm2⟩ := ihmem cid2 hmem
        rw [hstep_lookup cid2 hmem] at hc2
        refine ⟨c2, hc2, hcl2, ?_⟩
        intro hlen hfnc
        refine harm2 hlen ?_
        rw [hconn]
        exact hfnc

/-- Claim C4, amended: a PUBLISH on nonempty topic `t` with subscriber set
`subs` offers the framed message `t <data>` to every subscriber via
`Client.add_message` (which appends only while the buffer stays below
`MAX_STREAM_SIZE`), leaves every other client untouched, and arms
writability for a recipient exactly when `add_message`'s returned length
equals the framed message's length and the recipient's descriptor is a
connected key; every other poller entry is unchanged.  The returned-length
test coincides with "buffer went from empty to non-empty" for an accepted
enqueue, but also fires spuriously when the enqueue was dropped and the
old buffer length happens to equal the message length. -/
theorem publish_fanout_amended (s : ServerState) (topic data : PyStr)
    (s2 : ServerState) (subs : List ClientId)
    (hts : lookupKV topic s.topics = some subs) (hnd : subs.Nodup)
    (h : processPublish s topic data = some s2) :
    topic ≠ [] ∧
    (∀ cid ∈ subs, ∃ c, lookupKV cid s.clients = some c ∧
      lookupKV cid s2.clients =
        some (c.add_message (strBytes (topic ++ ' ' :: data) ++ EOM)).1 ∧
      ((c.add_message (strBytes (topic ++ ' ' :: data) ++ EOM)).2 =
          (strBytes (topic ++ ' ' :: data) ++ EOM).length →
        c.fileno ∈ keysKV s.connected →
        lookupKV c.fileno s2.epoll = some true)) ∧
    (∀ cid, cid ∉ subs → lookupKV cid s2.clients = lookupKV cid s.clients) ∧
    (∀ fn, lookupKV fn s2.epoll = lookupKV fn s.epoll ∨
      (lookupKV fn s2.epoll = some true ∧ ∃ cid ∈ subs, ∃ c,
        lookupKV cid s.clients = some c ∧ c.fileno = fn ∧
        (c.add_message (strBytes (topic ++ ' ' :: data) ++ EOM)).2 =
          (strBytes (topic ++ ' ' :: data) ++ EOM).length ∧
        c.fileno ∈ keysKV s.connected)) := by
  simp only [processPublish, Option.bind_eq_bind, Option.bind_eq_some,
    ensure_eq_some] at h
  obtain ⟨u, hne, h⟩ := h
  rw [hts] at h
  obtain ⟨hfields, hout, hep, hmem⟩ :=
    publishFold_spec (strBytes (topic ++ ' ' :: data) ++ EOM) subs s s2 h hnd
  exact ⟨hne, hmem, hout, hep⟩

theorem publish_fanout_amended_witness :
    ("t".data : PyStr) ≠ [] ∧
    (∀ cid ∈ [1], ∃ c, lookupKV cid c4wstate.clients = some c ∧
      lookupKV cid c4wres.clients =
        some (c.add_message (strBytes ("t".data ++ ' ' :: "d".data) ++ EOM)).1 ∧
      ((c.add_message (strBytes ("t".data ++ ' ' :: "d".data) ++ EOM)).2 =
          (strBytes ("t".data ++ ' ' :: "d".data) ++ EOM).length →
        c.fileno ∈ keysKV c4wstate.connected →
        lookupKV c.fileno c4wres.epoll = some true)) ∧
    (∀ cid, cid ∉ ([1] : List ClientId) →
      lookupKV cid c4wres.clients = lookupKV cid c4wstate.clients) ∧
    (∀ fn, lookupKV fn c4wres.epoll = lookupKV fn c4wstate.epoll ∨
      (lookupKV fn c4wres.epoll = some true ∧ ∃ cid ∈ [1], ∃ c,
        lookupKV cid c4wstate.clients = some c ∧ c.fileno = fn ∧
        (c.add_message (strBytes ("t".data ++ ' ' :: "d".data) ++ EOM)).2 =
          (strBytes ("t".data ++ ' ' :: "d".data) ++ EOM).length ∧
        c.fileno ∈ keysKV c4wstate.connected)) :=
  publish_fanout_amended c4wstate "t".data "d".data c4wres [1] rfl (by decide) (by decide)

/-! ### Claim C7: restore reply -/

/-- Claim C7: a `CONNECT <name>` on a pending connection whose name sits in
the lost table moves the client out of the lost table, binds it to this
connection with `connected = true`, and replies in a single send with the
two EOM-framed messages `RESTORED <name>` and the space-joined retained
subscription list back-to-back (a bare EOM second frame when the client
has no subscriptions); if the client's outbound buffer is non-empty,
writability is armed immediately on the new connection (and the poller is
untouched otherwise). -/
theorem restore_reply (s : ServerState) (fn : Nat) (name data : PyStr)
    (s2 : ServerState) (out : List Byte)
    (hok : NamesOK s) (hpend : fn ∈ s.pending) (hlost : name ∈ keysKV s.temp_lost)
    (hne : name ≠ [])
    (h : processCommand s fn "CONNECT".data name data = some (s2, out)) :
    ∃ cid c, lookupKV name s.temp_lost = some cid ∧
      lookupKV cid s.clients = some c ∧
      s2.temp_lost = eraseKV name s.temp_lost ∧
      s2.connected = insertKV fn cid s.connected ∧
      s2.connected_names = insertKV name cid s.connected_names ∧
      lookupKV cid s2.clients = some { c with fileno := fn, connected := true } ∧
      out = (strBytes ("RESTORED ".data ++ name) ++ EOM) ++
        (strBytes (joinSpaces c.topics) ++ EOM) ∧
      (c.topics = [] →
        out = (strBytes ("RESTORED ".data ++ name) ++ EOM) ++ EOM) ∧
      (c.message_stream ≠ [] → lookupKV fn s2.epoll = some true) ∧
      (c.message_stream = [] → s2.epoll = s.epoll) := by
  rw [processCommand, if_pos hpend, if_pos ⟨rfl, hne⟩] at h
  obtain ⟨hne2, hcase⟩ := processConnect_spec s fn name s2 out h
  rcases hcase with ⟨htaken, _⟩ | ⟨hno, hmem, hcr⟩ | ⟨hno1, hno2, hca⟩
  · exact absurd hlost (hok.2.2 name htaken)
  · obtain ⟨cid, c, hcid, hc, hco, hpend2, hout, hp, htl, hcon, hcn, hcl, htp, hco2,
      hlr, hepoll⟩ := clientRestore_spec s fn name s2 out hcr
    refine ⟨cid, c, hcid, hc, htl, hcon, hcn, ?_, hout, ?_, ?_, ?_⟩
    · rw [hcl, lookupKV_insert_self]
    · intro htop
      rw [hout, htop]
      rfl
    · intro hstream
      rcases hepoll with ⟨_, _, hep⟩ | ⟨hempty, _⟩
      · rw [hep, lookupKV_insert_self]
      · exact absurd hempty hstream
    · intro hstream
      rcases hepoll with ⟨hnempty, _⟩ | ⟨_, hep⟩
      · exact absurd hstream hnempty
      · exact hep
  · exact absurd hlost hno2

theorem restore_reply_witness :
    ∃ cid c, lookupKV "bob".data c7state.temp_lost = some cid ∧
      lookupKV cid c7state.clients = some c ∧
      c7res.temp_lost = eraseKV "bob".data c7state.temp_lost ∧
      c7res.connected = insertKV 5 cid c7state.connected ∧
      c7res.connected_names = insertKV "bob".data cid c7state.connected_names ∧
      lookupKV cid c7res.clients = some { c with fileno := 5, connected := true } ∧
      ((strBytes ("RESTORED ".data ++ "bob".data) ++ EOM) ++
          (strBytes (joinSpaces c7bob.topics) ++ EOM)) =
        (strBytes ("RESTORED ".data ++ "bob".data) ++ EOM) ++
          (strBytes (joinSpaces c.topics) ++ EOM) ∧
      (c.topics = [] →
        ((strBytes ("RESTORED ".data ++ "bob".data) ++ EOM) ++
            (strBytes (joinSpaces c7bob.topics) ++ EOM)) =
          (strBytes ("RESTORED ".data ++ "bob".data) ++ EOM) ++ EOM) ∧
      (c.message_stream ≠ [] → lookupKV 5 c7res.epoll = some true) ∧
      (c.message_stream = [] → c7res.epoll = c7state.epoll) :=
  restore_reply c7state 5 "bob".data [] c7res
    ((strBytes ("RESTORED ".data ++ "bob".data) ++ EOM) ++
      (strBytes (joinSpaces c7bob.topics) ++ EOM))
    (by simp only [NamesOK]; decide) (by decide) (by decide) (by decide) (by decide)

/-! ### Claim C10: lost-window message retention -/

theorem le_foldr_max (l : List Nat) (x : Nat) (hx : x ∈ l) : x ≤ l.foldr max 0 := by
  induction l with
  | nil => cases hx
  | cons a rest ih =>
    rw [List.foldr_cons]
    rcases List.mem_cons.mp hx with rfl | hmem
    · exact le_max_left _ _
    · exact le_trans (ih hmem) (le_max_right _ _)

theorem freshId_not_mem (s : ServerState) : freshId s ∉ keysKV s.clients := by
  intro hmem
  have hle := le_foldr_max (s.clients.map Prod.fst) _ hmem
  simp only [freshId] at hle
  omega

/-- Claim C10: a lost client (referenced from the lost table) is
disconnected with descriptor 0; a PUBLISH whose topic it subscribes to
offers it the framed message through the very same `Client.add_message`
cap as for connected clients, while the poller entry at its descriptor is
untouched; its outbound buffer survives subscribes, unsubscribes, peer
losses, outbound flushes and any CONNECT unchanged; and when it is
restored with a non-empty buffer the new connection is registered for
writability immediately. -/
theorem lost_retention (s : ServerState) (name : PyStr) (cid : ClientId) (c : Client)
    (hwf : WFConn s)
    (hlost : lookupKV name s.temp_lost = some cid)
    (hc : lookupKV cid s.clients = some c) :
    c.connected = false ∧ c.fileno = 0 ∧
    (∀ topic data s2 subs, processPublish s topic data = some s2 →
      lookupKV topic s.topics = some subs → subs.Nodup →
      (cid ∈ subs →
        lookupKV cid s2.clients =
          some (c.add_message (strBytes (topic ++ ' ' :: data) ++ EOM)).1) ∧
      lookupKV c.fileno s2.epoll = lookupKV c.fileno s.epoll) ∧
    (∀ fn topic s2, processSubscribe s fn topic = some s2 →
      ∃ c2, lookupKV cid s2.clients = some c2 ∧
        c2.message_stream = c.message_stream) ∧
    (∀ fn topic s2, processUnsubscribe s fn topic = some s2 →
      ∃ c2, lookupKV cid s2.clients = some c2 ∧
        c2.message_stream = c.message_stream) ∧
    (∀ fn now s2, clientLost s fn now = some s2 →
      ∃ c2, lookupKV cid s2.clients = some c2 ∧
        c2.message_stream = c.message_stream) ∧
    (∀ fn s2 out, sendMessageChunk s fn = some (s2, out) →
      ∃ c2, lookupKV cid s2.clients = some c2 ∧
        c2.message_stream = c.message_stream) ∧
    (∀ fn n s2 out, processConnect s fn n = some (s2, out) →
      ∃ c2, lookupKV cid s2.clients = some c2 ∧
        c2.message_stream = c.message_stream) ∧
    (∀ fn s2 out, clientRestore s fn name = some (s2, out) → c.message_stream ≠ [] →
      lookupKV cid s2.clients = some { c with fileno := fn, connected := true } ∧
      lookupKV fn s2.epoll = some true) := by
  obtain ⟨hnodup, hconntab, hlosttab, h0conn⟩ := hwf
  obtain ⟨c', hc', hcfalse, hcfile⟩ :=
    hlosttab (name, cid) (lookupKV_mem name cid s.temp_lost hlost)
  have hc'' : lookupKV cid s.clients = some c' := hc'
  have hceq : c' = c := Option.some.inj (hc''.symm.trans hc)
  rw [hceq] at hcfalse hcfile
  have hcidne : ∀ fn cid2, lookupKV fn s.connected = some cid2 → cid2 ≠ cid := by
    intro fn cid2 hcid2 he
    obtain ⟨cc, hcc, hcctrue, _⟩ :=
      hconntab (fn, cid2) (lookupKV_mem fn cid2 s.connected hcid2)
    have hcc2 : lookupKV cid2 s.clients = some cc := hcc
    rw [he, hc] at hcc2
    injection hcc2 with hce
    rw [← hce] at hcctrue
    rw [hcfalse] at hcctrue
    exact absurd hcctrue (by decide)
  refine ⟨hcfalse, hcfile, ?_, ?_, ?_, ?_, ?_, ?_, ?_⟩
  · intro topic data s2 subs hpub hts hnd
    simp only [processPublish, Option.bind_eq_bind, Option.bind_eq_some,
      ensure_eq_some] at hpub
    obtain ⟨u, hnet, hpub⟩ := hpub
    rw [hts] at hpub
    obtain ⟨hfields, hout, hep, hmem⟩ := publishFold_spec _ subs s s2 hpub hnd
    constructor
    · intro hin
      obtain ⟨cx, hcx, hclx, _⟩ := hmem cid hin
      have hxeq : cx = c := Option.some.inj (hcx.symm.trans hc)
      rw [hxeq] at hclx
      exact hclx
    · rcases hep c.fileno with hun | ⟨_, cid2, _, c2, _, hfn2, _, hcn2⟩
      · exact hun
      · rw [hfn2] at hcn2
        rw [hcfile] at hcn2
        exact absurd hcn2 h0conn
  · intro fn topic s2 hsub
    obtain ⟨hne, cid2, c2, hcid2, hc2, hcase⟩ := processSubscribe_spec s fn topic s2 hsub
    have hne2 : cid ≠ cid2 := fun he => hcidne fn cid2 hcid2 he.symm
    rcases hcase with ⟨_, hs3⟩ | ⟨_, ⟨_, hs3⟩ | ⟨set, _, hs3⟩⟩ <;> subst hs3 <;>
      exact ⟨c, (lookupKV_insert_ne _ _ _ _ hne2).trans hc, rfl⟩
  · intro fn topic s2 huns
    obtain ⟨hne, cid2, c2, hcid2, hc2, hcase⟩ := processUnsubscribe_spec s fn topic s2 huns
    have hne2 : cid ≠ cid2 := fun he => hcidne fn cid2 hcid2 he.symm
    rcases hcase with ⟨_, hs3⟩ | ⟨_, set, _, _, ⟨_, hs3⟩ | ⟨_, hs3⟩⟩ <;> subst hs3 <;>
      exact ⟨c, (lookupKV_insert_ne _ _ _ _ hne2).trans hc, rfl⟩
  · intro fn now s2 hcl
    obtain ⟨cid2, c2, hcid2, hc2, hname2, hep2, hco2, hconn2, hcn2, htl2, hclients2,
      htp2, hepoll2, hcons2, hpend2, hlr2⟩ := clientLost_spec s fn now s2 hcl
    have hne2 : cid ≠ cid2 := fun he => hcidne fn cid2 hcid2 he.symm
    refine ⟨c, ?_, rfl⟩
    rw [hclients2]
    exact (lookupKV_insert_ne _ _ _ _ hne2).trans hc
  · intro fn s2 out hsmc
    obtain ⟨cid2, c2, hcid2, hc2, hco2, hout2, hclients2, hrest⟩ :=
      sendMessageChunk_spec s fn s2 out hsmc
    have hne2 : cid ≠ cid2 := fun he => hcidne fn cid2 hcid2 he.symm
    refine ⟨c, ?_, rfl⟩
    rw [hclients2]
    exact (lookupKV_insert_ne _ _ _ _ hne2).trans hc
  · intro fn n s2 out hpc
    obtain ⟨hne3, hcase⟩ := processConnect_spec s fn n s2 out hpc
    rcases hcase with ⟨_, _, hcr, _⟩ | ⟨_, _, hcr⟩ | ⟨_, _, hca⟩
    · obtain ⟨_, _, hs2⟩ := connectionRemove_spec _ _ _ hcr
      subst hs2
      exact ⟨c, hc, rfl⟩
    · obtain ⟨cid3, c3, hcid3, hc3, _, _, _, _, _, _, _, hcl3, _, _, _, _⟩ :=
        clientRestore_spec _ _ _ _ _ hcr
      by_cases he : cid3 = cid
      · subst he
        have hceq3 : c3 = c := Option.some.inj (hc3.symm.trans hc)
        rw [hceq3] at hcl3
        refine ⟨{ c with fileno := fn, connected := true }, ?_, rfl⟩
        rw [hcl3, lookupKV_insert_self]
      · refine ⟨c, ?_, rfl⟩
        rw [hcl3, lookupKV_insert_ne _ _ _ _ (fun hx => he hx.symm)]
        exact hc
    · obtain ⟨_, _, _, _, _, hcl3, _, _, _, _, _, _⟩ := clientAdd_spec _ _ _ _ _ hca
      have hne4 : cid ≠ freshId s := fun he =>
        freshId_not_mem s (he ▸ mem_keysKV_of_lookup cid c s.clients hc)
      refine ⟨c, ?_, rfl⟩
      rw [hcl3, lookupKV_insert_ne _ _ _ _ hne4]
      exact hc
  · intro fn s2 out hcr hstream
    obtain ⟨cid3, c3, hcid3, hc3, _, _, _, _, _, _, _, hcl3, _, _, _, hepoll3⟩ :=
      clientRestore_spec s fn name s2 out hcr
    have hcideq : cid3 = cid := Option.some.inj (hcid3.symm.trans hlost)
    subst hcideq
    have hceq3 : c3 = c := Option.some.inj (hc3.symm.trans hc)
    rw [hceq3] at hcl3
    refine ⟨?_, ?_⟩
    · rw [hcl3, lookupKV_insert_self]
    · rcases hepoll3 with ⟨_, _, hep⟩ | ⟨hempty, _⟩
      · rw [hep, lookupKV_insert_self]
      · rw [hceq3] at hempty
        exact absurd hempty hstream

theorem lost_retention_witness :
    c7bob.connected = false ∧ c7bob.fileno = 0 ∧
    (∀ topic data s2 subs, processPublish c7state topic data = some s2 →
      lookupKV topic c7state.topics = some subs → subs.Nodup →
      (2 ∈ subs →
        lookupKV 2 s2.clients =
          some (c7bob.add_message (strBytes (topic ++ ' ' :: data) ++ EOM)).1) ∧
      lookupKV c7bob.fileno s2.epoll = lookupKV c7bob.fileno c7state.epoll) ∧
    (∀ fn topic s2, processSubscribe c7state fn topic = some s2 →
      ∃ c2, lookupKV 2 s2.clients = some c2 ∧
        c2.message_stream = c7bob.message_stream) ∧
    (∀ fn topic s2, processUnsubscribe c7state fn topic = some s2 →
      ∃ c2, lookupKV 2 s2.clients = some c2 ∧
        c2.message_stream = c7bob.message_stream) ∧
    (∀ fn now s2, clientLost c7state fn now = some s2 →
      ∃ c2, lookupKV 2 s2.clients = some c2 ∧
        c2.message_stream = c7bob.message_stream) ∧
    (∀ fn s2 out, sendMessageChunk c7state fn = some (s2, out) →
      ∃ c2, lookupKV 2 s2.clients = some c2 ∧
        c2.message_stream = c7bob.message_stream) ∧
    (∀ fn n s2 out, processConnect c7state fn n = some (s2, out) →
      ∃ c2, lookupKV 2 s2.clients = some c2 ∧
        c2.message_stream = c7bob.message_stream) ∧
    (∀ fn s2 out, clientRestore c7state fn "bob".data = some (s2, out) →
      c7bob.message_stream ≠ [] →
      lookupKV 2 s2.clients = some { c7bob with fileno := fn, connected := true } ∧
      lookupKV fn s2.epoll = some true) :=
  lost_retention c7state "bob".data 2 c7bob
    ⟨by decide,
      fun pr hpr => absurd hpr (List.not_mem_nil pr),
      fun pr hpr => by
        have hpr2 : pr = ("bob".data, 2) := by simpa [c7state] using hpr
        rw [hpr2]
        exact ⟨c7bob, rfl, rfl, rfl⟩,
      by decide⟩
    rfl rfl
